import Mathlib

/-!
Verification of `lmarshal.c` (lua-marshal): a Lua table serializer.

This file gives a shallow embedding of the pack/unpack engine of
`src/lmarshal.c` and proves/refutes the frozen specification claims.

Modelling conventions:
* Lua values are a tagged variant; tables, functions, userdata and threads
  are reference values identified by an address into an explicit heap
  (addresses model C pointer identity).
* `lua_Number` (an IEEE-754 double) is modelled by its 8 raw bytes in
  little-endian (host) order; the C code only ever memcpy's these bytes, so
  nothing about float arithmetic is needed.  Equality of numbers is byte
  equality (exact for the integral doubles produced by `dblLE`).
* Machine integers are `Nat` with explicit `% 2 ^ w` where the C code
  truncates.  `buf_write(L, (void*)&obj, width, buf)` copies the first
  `width` bytes of a C object of a given size: `cObjBytes` reproduces this
  for either endianness (on big-endian hosts the copied bytes are the HIGH
  bytes of the object, faithfully reproducing that quirk of the source).
* The `__persist` metafield and `lua_call` of hook/reviver functions are
  host behaviour outside the serializer; they are modelled by a pure call
  oracle `CallOracle` passed in as a parameter (the spec likewise treats
  hooks as an external collaborator interface).  Side effects of hooks are
  out of scope.
* `lua_dump`/`lua_load` (the bytecode service) are modelled as an opaque
  pass-through of the `code` byte blob, as the spec prescribes.
* Errors raised with `luaL_error` abort the whole call; they are modelled
  with `Except`.  Recursion uses explicit fuel; exhausted fuel yields the
  distinguished error `MarErr.noFuel`, which is never produced for the
  concrete inputs considered (enough fuel is always supplied there).
* The decoder is instrumented: `UnpSt.oob` records whether any byte outside
  the supplied `[buf, buf+len)` range was ever read (the C code reads
  before it bounds-checks), and `UnpSt.log` records every
  `lua_rawseti(L, 2, (*idx)++)` reference-table registration in order.
  Neither field feeds back into the computed result.
-/

set_option maxRecDepth 100000

namespace LMarshal

/-! ## Constants (from lua.h and lmarshal.c) -/

def LUA_TNIL : Nat := 0
def LUA_TBOOLEAN : Nat := 1
def LUA_TNUMBER : Nat := 3
def LUA_TSTRING : Nat := 4
def LUA_TTABLE : Nat := 5
def LUA_TFUNCTION : Nat := 6
def LUA_TUSERDATA : Nat := 7
def LUA_TTHREAD : Nat := 8

def MAR_TREF : Nat := 1
def MAR_TVAL : Nat := 2
def MAR_TUSR : Nat := 3

def MAR_CHR : Nat := 1
def MAR_I32 : Nat := 4
def MAR_I64 : Nat := 8

def MAR_MAGIC : Nat := 0x8e

/-! ## Values and the heap -/

/-- A Lua value.  `number` holds the 8 bytes of the IEEE-754 double in
little-endian order; `str` holds the raw string bytes.  `tbl`, `func`,
`usr` and `thread` are reference values: the address is the identity. -/
inductive LuaValue : Type where
  | nil : LuaValue
  | boolean (b : Bool) : LuaValue
  | number (bytes : List Nat) : LuaValue
  | str (bytes : List Nat) : LuaValue
  | tbl (addr : Nat) : LuaValue
  | func (addr : Nat) : LuaValue
  | usr (addr : Nat) : LuaValue
  | thread (addr : Nat) : LuaValue
deriving DecidableEq, Repr

/-- A Lua table: association list of key/value pairs (iteration order of
`lua_next` is the list order) plus the `__persist` metafield, if any
(`luaL_getmetafield(L, val, "__persist")`). -/
structure LuaTable where
  pairs : List (LuaValue × LuaValue)
  persistField : Option LuaValue := none
deriving DecidableEq, Repr

/-- A Lua function (closure): its dumped bytecode blob, whether it is a C
function (`lua_getinfo` reports `what[0] != 'L'`), and its upvalues. -/
structure LuaFunction where
  code : List Nat
  isCFun : Bool := false
  upvals : List LuaValue := []
deriving DecidableEq, Repr

/-- A userdata: only its `__persist` metafield matters to the serializer. -/
structure LuaUserdata where
  persistField : Option LuaValue := none
deriving DecidableEq, Repr

inductive LuaObject : Type where
  | otbl (t : LuaTable) : LuaObject
  | ofn (f : LuaFunction) : LuaObject
  | ousr (u : LuaUserdata) : LuaObject
deriving DecidableEq, Repr

/-- The heap: the object at address `a` is `h.get? a`. -/
abbrev Heap := List LuaObject

/-- Model of `lua_type` of a value (constants from lua.h). -/
def lua_type : LuaValue → Nat
  | .nil => 0
  | .boolean _ => 1
  | .number _ => 3
  | .str _ => 4
  | .tbl _ => 5
  | .func _ => 6
  | .usr _ => 7
  | .thread _ => 8

/-! ## Byte-level helpers -/

/-- The `width` bytes of `v`, least significant first. -/
def toLE : Nat → Nat → List Nat
  | 0, _ => []
  | w + 1, v => (v % 256) :: toLE w (v / 256)

/-- Read a little-endian byte list as a `Nat`. -/
def fromLE (bs : List Nat) : Nat :=
  bs.foldr (fun b acc => b % 256 + 256 * acc) 0

/-- The bytes `buf_write(L, (void*)&obj, width, buf)` copies from a C
object of `size` bytes holding value `v` on a host of the given
endianness: the FIRST `width` bytes in memory order.  Little-endian: the
low-order bytes, least significant first.  Big-endian: the high-order
bytes, most significant first. -/
def cObjBytes (le : Bool) (width size v : Nat) : List Nat :=
  if le then toLE width (v % 2 ^ (8 * width))
  else (toLE width ((v / 2 ^ (8 * (size - width))) % 2 ^ (8 * width))).reverse

/-- Floor of the base-2 logarithm (fuel-based so that it reduces inside
the kernel; `flog2.go f n` is exact whenever `n ≤ 2 ^ f`). -/
def flog2 (n : Nat) : Nat := flog2.go n n
where
  go : Nat → Nat → Nat
    | 0, _ => 0
    | f + 1, n => if n ≥ 2 then go f (n / 2) + 1 else 0

/-- The 8 little-endian bytes of the IEEE-754 double representing the
natural number `n` (exact for `n < 2 ^ 53`, which covers every integer the
code turns into a table key). -/
def dblLE (n : Nat) : List Nat :=
  if n = 0 then List.replicate 8 0
  else
    let k := flog2 n
    toLE 8 ((n * 2 ^ (52 - k) - 2 ^ 52) + (1023 + k) * 2 ^ 52)

/-- Number value for the integer `n` (used for `lua_rawseti` keys etc.). -/
def numV (n : Nat) : LuaValue := .number (dblLE n)

/-- NaN test on the 8 little-endian bytes of a double: exponent field all
ones and non-zero mantissa (`luai_numisnan`). -/
def isNaN8 (b : List Nat) : Bool :=
  (b.getD 7 0 % 128 = 127) && (b.getD 6 0 / 16 = 15) &&
    (b.getD 6 0 % 16 ≠ 0 || b.getD 5 0 ≠ 0 || b.getD 4 0 ≠ 0 ||
     b.getD 3 0 ≠ 0 || b.getD 2 0 ≠ 0 || b.getD 1 0 ≠ 0 || b.getD 0 0 ≠ 0)

/-- Interpret 4 bytes (as a `Nat` below `2^32`) as a signed C `int`. -/
def asInt32 (v : Nat) : Int :=
  if v < 2 ^ 31 then (v : Int) else (v : Int) - 2 ^ 32

/-! ## Raw table operations -/

/-- Model of `lua_rawget`-style lookup in an association list (keys compared
structurally; numbers by their byte representation). -/
def tget : List (LuaValue × LuaValue) → LuaValue → Option LuaValue
  | [], _ => none
  | (k', v) :: rest, k => if k' = k then some v else tget rest k

/-- Raw store: assigning `nil` removes the key, otherwise update in place
or append. -/
def tset : List (LuaValue × LuaValue) → LuaValue → LuaValue →
    List (LuaValue × LuaValue)
  | [], k, v => if v = .nil then [] else [(k, v)]
  | (k', v') :: rest, k, v =>
    if k' = k then (if v = .nil then rest else (k, v) :: rest)
    else (k', v') :: tset rest k v

def hget (h : Heap) (a : Nat) : Option LuaObject := h.get? a

def hset (h : Heap) (a : Nat) (o : LuaObject) : Heap := h.set a o

/-- Model of `lua_objlen` of a table: the array border, i.e. the number of
consecutive integer keys `1, 2, ...` present (the decoded upvalue tables
this is applied to have exactly the keys `1..n`). -/
def objLen (ps : List (LuaValue × LuaValue)) : Nat :=
  go ps.length 0
where
  go : Nat → Nat → Nat
    | 0, n => n
    | fuel + 1, n => if (tget ps (numV (n + 1))).isSome then go fuel (n + 1) else n

/-! ## Errors and the call oracle -/

/-- Errors raised by `luaL_error` / the Lua runtime during a call, plus the
fuel sentinel of the model. -/
inductive MarErr : Type where
  | bufTooLong      -- "buffer too long"
  | persistNotFn    -- "__persist must return a function"
  | cFunction       -- "attempt to persist a C function"
  | invalidType     -- "invalid value type"
  | badCode         -- "bad code": failed bound check or unknown type tag
  | badData         -- "bad encoded data": unknown table sub-tag
  | badHeader       -- "bad header"
  | badMagic        -- "bad magic"
  | nilIndex        -- "table index is nil" (lua_settable)
  | nanIndex        -- "table index is NaN" (lua_settable)
  | callErr         -- error raised inside lua_call of a hook/reviver
  | apiMisuse       -- lua_next applied to a non-table
  | badAddr         -- dangling heap address (unreachable for closed heaps)
  | noFuel          -- model fuel exhausted (never hit with enough fuel)
deriving DecidableEq, Repr

def exOk {ε α : Type} : Except ε α → Bool
  | .ok _ => true
  | .error _ => false

/-- Pure oracle for `lua_call f args` of host functions (persist hooks and
revivers): `none` models an error raised inside the call. -/
abbrev CallOracle := LuaValue → List LuaValue → Option LuaValue

/-! ## Pack (Encoder)

`pack_value` mirrors `pack_value(L, buf, val, idx)`: it receives the
caller's id counter by pointer (so the returned counter goes back to the
caller), while `mar_pack` mirrors `mar_pack(L, buf, idx)` whose counter
parameter is passed BY VALUE: increments made inside a nested record are
discarded by the caller.  The reference table (`refs`, value identity → id)
and the heap are global, as in the C code (stack index 2). -/

structure PackSt where
  heap : Heap
  refs : List (Nat × Nat)
deriving DecidableEq, Repr

def refGet : List (Nat × Nat) → Nat → Option Nat
  | [], _ => none
  | (a', i) :: rest, a => if a' = a then some i else refGet rest a

def refPut (refs : List (Nat × Nat)) (a i : Nat) : List (Nat × Nat) :=
  refs ++ [(a, i)]

abbrev PackValT : Type :=
  PackSt → Nat → LuaValue → Except MarErr (PackSt × Nat × List Nat)

abbrev MarPackT : Type :=
  PackSt → Nat → List (LuaValue × LuaValue) → Except MarErr (PackSt × List Nat)

/-- One fuel step of `pack_value(L, buf, val, idx)` from lmarshal.c: the
body of the function, with `prev` giving the meaning of the two packing
functions at one unit less fuel (the C functions are mutually recursive).
Arguments after `prev`: the global state, the caller's `*idx`, and the
value; the result carries the updated state, the updated `*idx`, and the
bytes appended to the caller's buffer. -/
def packStepVal (c : CallOracle) (le : Bool) (prev : PackValT × MarPackT) :
    PackValT := fun st idx v =>
    -- buf_write(L, (void*)&val_type, MAR_CHR, buf);  (val_type is an int)
    let tagB := cObjBytes le MAR_CHR 4 (lua_type v)
    match v with
    | .boolean b =>
      .ok (st, idx, tagB ++ cObjBytes le MAR_CHR 4 (if b then 1 else 0))
    | .str s =>
      -- buf_write(&l, MAR_I32) with l a size_t, then the bytes themselves
      if s.length > 2 ^ 32 - 1 then .error .bufTooLong
      else .ok (st, idx, tagB ++ cObjBytes le MAR_I32 8 s.length ++ s)
    | .number nb =>
      -- buf_write(&num_val, MAR_I64): the double's 8 bytes in host order
      .ok (st, idx, tagB ++ (if le then nb else nb.reverse))
    | .tbl a =>
      match refGet st.refs a with
      | some r =>
        .ok (st, idx, tagB ++ cObjBytes le MAR_CHR 4 MAR_TREF ++
              cObjBytes le MAR_I32 4 r)
      | none =>
        match hget st.heap a with
        | some (.otbl t) =>
          match t.persistField with
          | some pf =>
            -- MAR_TUSR: register the value, call the __persist hook, pack
            -- a fresh one-element wrapper table holding the returned
            -- closure, then emit tag + length + wrapper bytes.
            let st1 : PackSt := { st with refs := refPut st.refs a idx }
            match c pf [.tbl a] with
            | none => .error .callErr
            | some r =>
              if lua_type r ≠ LUA_TFUNCTION then .error .persistNotFn
              else
                let wrapper : LuaTable := ⟨[(numV 1, r)], none⟩
                let st2 : PackSt :=
                  { st1 with heap := st1.heap ++ [.otbl wrapper] }
                match prev.2 st2 (idx + 1) wrapper.pairs with
                | .error e => .error e
                | .ok (st3, rec) =>
                  if rec.length > 2 ^ 32 - 1 then .error .bufTooLong
                  else .ok (st3, idx + 1,
                    tagB ++ cObjBytes le MAR_CHR 4 MAR_TUSR ++
                    cObjBytes le MAR_I32 8 rec.length ++ rec)
          | none =>
            -- MAR_TVAL: register, then pack the pairs into a nested
            -- buffer; note mar_pack receives *idx by value.
            let st1 : PackSt := { st with refs := refPut st.refs a idx }
            match prev.2 st1 (idx + 1) t.pairs with
            | .error e => .error e
            | .ok (st2, rec) =>
              if rec.length > 2 ^ 32 - 1 then .error .bufTooLong
              else .ok (st2, idx + 1,
                tagB ++ cObjBytes le MAR_CHR 4 MAR_TVAL ++
                cObjBytes le MAR_I32 8 rec.length ++ rec)
        | _ => .error .badAddr
    | .func a =>
      match refGet st.refs a with
      | some r =>
        .ok (st, idx, tagB ++ cObjBytes le MAR_CHR 4 MAR_TREF ++
              cObjBytes le MAR_I32 4 r)
      | none =>
        match hget st.heap a with
        | some (.ofn f) =>
          -- register, lua_dump the bytecode (nothing is written for a C
          -- function), emit tag + length + blob, THEN error out on a C
          -- function; finally pack the upvalue table (built with
          -- lua_rawseti, so nil upvalues are simply absent) with the
          -- by-value counter, emitting length + bytes with no extra tag.
          let st1 : PackSt := { st with refs := refPut st.refs a idx }
          let blob := if f.isCFun then [] else f.code
          if f.isCFun then .error .cFunction
          else if blob.length > 2 ^ 32 - 1 then .error .bufTooLong
          else
            let ups := (List.range f.upvals.length).foldl
              (fun ps i => tset ps (numV (i + 1)) (f.upvals.getD i .nil)) []
            match prev.2 st1 (idx + 1) ups with
            | .error e => .error e
            | .ok (st2, rec) =>
              if rec.length > 2 ^ 32 - 1 then .error .bufTooLong
              else .ok (st2, idx + 1,
                tagB ++ cObjBytes le MAR_CHR 4 MAR_TVAL ++
                cObjBytes le MAR_I32 8 blob.length ++ blob ++
                cObjBytes le MAR_I32 8 rec.length ++ rec)
        | _ => .error .badAddr
    | .usr a =>
      match refGet st.refs a with
      | some r =>
        .ok (st, idx, tagB ++ cObjBytes le MAR_CHR 4 MAR_TREF ++
              cObjBytes le MAR_I32 4 r)
      | none =>
        match hget st.heap a with
        | some (.ousr u) =>
          match u.persistField with
          | some pf =>
            let st1 : PackSt := { st with refs := refPut st.refs a idx }
            match c pf [.usr a] with
            | none => .error .callErr
            | some r =>
              if lua_type r ≠ LUA_TFUNCTION then .error .persistNotFn
              else
                let wrapper : LuaTable := ⟨[(numV 1, r)], none⟩
                let st2 : PackSt :=
                  { st1 with heap := st1.heap ++ [.otbl wrapper] }
                match prev.2 st2 (idx + 1) wrapper.pairs with
                | .error e => .error e
                | .ok (st3, rec) =>
                  if rec.length > 2 ^ 32 - 1 then .error .bufTooLong
                  else .ok (st3, idx + 1,
                    tagB ++ cObjBytes le MAR_CHR 4 MAR_TUSR ++
                    cObjBytes le MAR_I32 8 rec.length ++ rec)
          | none =>
            -- no hook: emit only the MAR_TVAL tag, no registration
            .ok (st, idx, tagB ++ cObjBytes le MAR_CHR 4 MAR_TVAL)
        | _ => .error .badAddr
    | .thread _ => .ok (st, idx, tagB)  -- decodes to nil
    | .nil => .error .invalidType       -- switch default: no LUA_TNIL case

/-- One fuel step of `mar_pack(L, buf, idx)`: iterate the pairs with
`lua_next`, packing key then value.  The final counter value is NOT
returned to the caller (the C parameter is by value). -/
def packStepRec (_c : CallOracle) (_le : Bool) (prev : PackValT × MarPackT) :
    MarPackT := fun st idx ps =>
  match ps with
  | [] => .ok (st, [])
  | (k, v) :: rest =>
    match prev.1 st idx k with
    | .error e => .error e
    | .ok (st1, idx1, b1) =>
      match prev.1 st1 idx1 v with
      | .error e => .error e
      | .ok (st2, idx2, b2) =>
        match prev.2 st2 idx2 rest with
        | .error e => .error e
        | .ok (st3, b3) => .ok (st3, b1 ++ b2 ++ b3)

/-- The fueled pair of packing functions, built with a plain `Nat.rec` so
that the kernel can evaluate it by direct recursor reduction. -/
def packGo (c : CallOracle) (le : Bool) : Nat → PackValT × MarPackT :=
  Nat.rec (motive := fun _ => PackValT × MarPackT)
    ⟨fun _ _ _ => .error .noFuel, fun _ _ _ => .error .noFuel⟩
    (fun _ prev => ⟨packStepVal c le prev, packStepRec c le prev⟩)

/-- Model of `pack_value(L, buf, val, idx)` from lmarshal.c. -/
def pack_value (c : CallOracle) (le : Bool) (fuel : Nat) :
    PackSt → Nat → LuaValue → Except MarErr (PackSt × Nat × List Nat) :=
  (packGo c le fuel).1

/-- Model of `mar_pack(L, buf, idx)` from lmarshal.c. -/
def mar_pack (c : CallOracle) (le : Bool) (fuel : Nat) :
    PackSt → Nat → List (LuaValue × LuaValue) →
    Except MarErr (PackSt × List Nat) :=
  (packGo c le fuel).2

/-- Model of `tbl_marshal`: write the magic byte and the host endianness marker
(`int x = 1; int e = *(char*)&x;` — 1 on little-endian, 0 on big-endian,
written as the first byte of the int `e`), then pack the root table's own
pairs directly, starting the id counter at 1.  The root must be a table:
`lua_next` on anything else cannot return a result (it is an API
violation that aborts the call). -/
def tbl_marshal (c : CallOracle) (le : Bool) (fuel : Nat) (h : Heap)
    (root : LuaValue) : Except MarErr (List Nat) :=
  match root with
  | .tbl a =>
    match hget h a with
    | some (.otbl t) =>
      match mar_pack c le fuel ⟨h, []⟩ 1 t.pairs with
      | .error e => .error e
      | .ok (_, body) =>
        .ok (MAR_MAGIC :: cObjBytes le MAR_CHR 4 (if le then 1 else 0) ++ body)
    | _ => .error .badAddr
  | _ => .error .apiMisuse

/-! ## Unpack (Decoder)

The decoder operates on the payload byte list `mem`.  A decode window is a
pair `(base, len)`: bound checks (`mar_incr_ptr` / `mar_next_len`) are
relative to the window, reads are at absolute positions `base + cur + j`.
The C code creates nested windows (`mar_unpack(L, *p, l, *idx)`) WITHOUT
first checking that `l` fits in the enclosing window, and performs the
reads of several macros/calls BEFORE the corresponding bound check; the
`oob` flag records whether any read fell outside `mem` (i.e. outside the
supplied `[buf, buf+len)` range).  Out-of-range bytes are modelled as 0
(their value never influences a successfully returned result, as proved
below).  `log` records every reference-table registration
`lua_rawseti(L, 2, (*idx)++)` in execution order. -/

structure UnpSt where
  heap : Heap
  refs : List (Int × LuaValue)
  log : List (Int × LuaValue)
  oob : Bool
deriving DecidableEq, Repr

def byteAt (mem : List Nat) (i : Nat) : Nat := mem.getD i 0 % 256

def readBytes (mem : List Nat) (i k : Nat) : List Nat :=
  (List.range k).map (fun j => byteAt mem (i + j))

/-- Record whether a read of `k` bytes at absolute position `i` touches a
byte outside `mem`. -/
def markRead (st : UnpSt) (mem : List Nat) (i k : Nat) : UnpSt :=
  if k = 0 ∨ i + k ≤ mem.length then st else { st with oob := true }

def refUGet : List (Int × LuaValue) → Int → Option LuaValue
  | [], _ => none
  | (i', v) :: rest, i => if i' = i then some v else refUGet rest i

def refUPut : List (Int × LuaValue) → Int → LuaValue → List (Int × LuaValue)
  | [], i, v => [(i, v)]
  | (i', v') :: rest, i, v =>
    if i' = i then (i, v) :: rest else (i', v') :: refUPut rest i v

/-- Model of `lua_rawseti(L, 2, idx)` on the reference table, plus the
instrumentation log.  (Registered values are never nil in the source, so
plain store semantics are faithful.) -/
def regPut (st : UnpSt) (idx : Nat) (v : LuaValue) : UnpSt :=
  { st with refs := refUPut st.refs (Int.ofNat idx) v,
            log := st.log ++ [(Int.ofNat idx, v)] }

/-- Model of `lua_settable(L, -3)`: raises "table index is nil" / "table index is
NaN"; assigning nil removes the key. -/
def settableOp (st : UnpSt) (addr : Nat) (k v : LuaValue) :
    UnpSt × Except MarErr Unit :=
  if k = .nil then (st, .error .nilIndex)
  else if (match k with | .number b => isNaN8 b | _ => false) then
    (st, .error .nanIndex)
  else
    match hget st.heap addr with
    | some (.otbl t) =>
      ({ st with
          heap := hset st.heap addr (.otbl { t with pairs := tset t.pairs k v }) },
       .ok ())
    | _ => (st, .error .badAddr)

/-- The `lua_setupvalue` loop after decoding a function's upvalue record:
`nups = lua_objlen` of the decoded upvalue table; upvalue `i` of the
loaded closure is set from key `i`.  (The number of upvalue slots of a
closure obtained from `lua_load` is a host bytecode detail; the model
gives loaded closures no slots, and `lua_setupvalue` beyond the available
slots is a no-op, which `List.set` reproduces.) -/
def setUpvalues (st : UnpSt) (faddr uaddr : Nat) : UnpSt :=
  match hget st.heap faddr, hget st.heap uaddr with
  | some (.ofn f), some (.otbl u) =>
    let nups := objLen u.pairs
    let f' := (List.range nups).foldl
      (fun g i =>
        { g with upvals := g.upvals.set i ((tget u.pairs (numV (i + 1))).getD .nil) })
      f
    { st with heap := hset st.heap faddr (.ofn f') }
  | _, _ => st

abbrev UnpValT : Type :=
  Nat → Nat → UnpSt → Nat → Nat → UnpSt × Except MarErr (LuaValue × Nat × Nat)

abbrev MarUnpT : Type :=
  Nat → Nat → UnpSt → Nat → Nat → Nat → UnpSt × Except MarErr Unit

/-- Decode case LUA_TBOOLEAN:
`lua_pushboolean(L, *(char*)*p); mar_incr_ptr(MAR_CHR)` — the byte is read
before the bound check. -/
def unpBool (mem : List Nat) : UnpValT := fun _base len st cur idx =>
  let st := markRead st mem (_base + cur) MAR_CHR
  let b := byteAt mem (_base + cur)
  if cur + MAR_CHR > len then (st, .error .badCode)
  else (st, .ok (.boolean (b ≠ 0), cur + MAR_CHR, idx))

/-- Decode case LUA_TNUMBER:
`lua_pushnumber(L, *(lua_Number*)*p); mar_incr_ptr(MAR_I64)`. -/
def unpNum (mem : List Nat) : UnpValT := fun base len st cur idx =>
  let st := markRead st mem (base + cur) MAR_I64
  let nb := readBytes mem (base + cur) MAR_I64
  if cur + MAR_I64 > len then (st, .error .badCode)
  else (st, .ok (.number nb, cur + MAR_I64, idx))

/-- Decode case LUA_TSTRING: `mar_next_len(l, uint32_t)` checks before
reading the length field, but `lua_pushlstring(L, *p, l)` reads the `l`
string bytes BEFORE `mar_incr_ptr(l)` checks them. -/
def unpStr (mem : List Nat) : UnpValT := fun base len st cur idx =>
  if cur + MAR_I32 > len then (st, .error .badCode)
  else
    let st := markRead st mem (base + cur) MAR_I32
    let l := fromLE (readBytes mem (base + cur) MAR_I32)
    let cur := cur + MAR_I32
    let st := markRead st mem (base + cur) l
    let sb := readBytes mem (base + cur) l
    if cur + l > len then (st, .error .badCode)
    else (st, .ok (.str sb, cur + l, idx))

/-- The MAR_TREF sub-case — written out identically in the table, function
and userdata branches of the source: `mar_next_len(ref, int);
lua_rawgeti(L, 2, ref)`.  An unregistered id simply yields nil. -/
def unpRef (mem : List Nat) : UnpValT := fun base len st cur idx =>
  if cur + MAR_I32 > len then (st, .error .badCode)
  else
    let st := markRead st mem (base + cur) MAR_I32
    let ref := asInt32 (fromLE (readBytes mem (base + cur) MAR_I32))
    (st, .ok ((refUGet st.refs ref).getD .nil, cur + MAR_I32, idx))

/-- The MAR_TVAL table sub-case: `lua_newtable; lua_pushvalue(-1);
lua_rawseti(L, 2, (*idx)++)` — the empty container is registered BEFORE
its contents are decoded — then `mar_unpack(L, *p, l, *idx)` on the
nested window (the counter is passed by value) and only afterwards
`mar_incr_ptr(l)`. -/
def unpVal (prev : UnpValT × MarUnpT) (mem : List Nat) : UnpValT :=
  fun base len st cur idx =>
  if cur + MAR_I32 > len then (st, .error .badCode)
  else
    let st := markRead st mem (base + cur) MAR_I32
    let l := fromLE (readBytes mem (base + cur) MAR_I32)
    let cur := cur + MAR_I32
    let addr := st.heap.length
    let st := { st with heap := st.heap ++ [.otbl ⟨[], none⟩] }
    let st := regPut st idx (.tbl addr)
    match prev.2 (base + cur) l st 0 (idx + 1) addr with
    | (st, .error e) => (st, .error e)
    | (st, .ok _) =>
      if cur + l > len then (st, .error .badCode)
      else (st, .ok (.tbl addr, cur + l, idx + 1))

/-- The MAR_TUSR sub-case — written out identically in the table and
userdata branches of the source: `lua_newtable`, then `mar_unpack` of the
wrapper record BEFORE `*idx` is incremented, then
`lua_rawgeti(L, -1, 1); lua_call(L, 0, 1)` — the reviver is invoked with
ZERO arguments — and the call's RESULT is registered at `(*idx)++`. -/
def unpOpq (c : CallOracle) (prev : UnpValT × MarUnpT) (mem : List Nat) :
    UnpValT := fun base len st cur idx =>
  if cur + MAR_I32 > len then (st, .error .badCode)
  else
    let st := markRead st mem (base + cur) MAR_I32
    let l := fromLE (readBytes mem (base + cur) MAR_I32)
    let cur := cur + MAR_I32
    let addr := st.heap.length
    let st := { st with heap := st.heap ++ [.otbl ⟨[], none⟩] }
    match prev.2 (base + cur) l st 0 idx addr with
    | (st, .error e) => (st, .error e)
    | (st, .ok _) =>
      let f := (match hget st.heap addr with
                | some (.otbl t) => (tget t.pairs (numV 1)).getD .nil
                | _ => .nil)
      match c f [] with
      | none => (st, .error .callErr)
      | some res =>
        let st := regPut st idx res
        if cur + l > len then (st, .error .badCode)
        else (st, .ok (res, cur + l, idx + 1))

/-- Decode case LUA_TTABLE: read the sub-tag (`char tag = *(char*)*p;
mar_incr_ptr(MAR_CHR)`), then dispatch on MAR_TREF / MAR_TVAL / MAR_TUSR;
anything else is "bad encoded data". -/
def unpTbl (c : CallOracle) (prev : UnpValT × MarUnpT) (mem : List Nat) :
    UnpValT := fun base len st cur idx =>
  let st := markRead st mem (base + cur) MAR_CHR
  let tag := byteAt mem (base + cur)
  if cur + MAR_CHR > len then (st, .error .badCode)
  else
    let cur := cur + MAR_CHR
    if tag = MAR_TREF then unpRef mem base len st cur idx
    else if tag = MAR_TVAL then unpVal prev mem base len st cur idx
    else if tag = MAR_TUSR then unpOpq c prev mem base len st cur idx
    else (st, .error .badData)

/-- Decode case LUA_TFUNCTION: read the sub-tag (`mar_incr_ptr(1)`), then
either a back-reference or — for ANY other tag byte — load a closure
from the length-prefixed blob (`lua_load` via `buf_read` consumes the
blob bytes BEFORE `mar_incr_ptr(l)`; its status is ignored by the
source), register it at `(*idx)++`, decode the upvalue record with the
by-value counter and bind the upvalues. -/
def unpFun (prev : UnpValT × MarUnpT) (mem : List Nat) : UnpValT :=
  fun base len st cur idx =>
  let st := markRead st mem (base + cur) MAR_CHR
  let tag := byteAt mem (base + cur)
  if cur + 1 > len then (st, .error .badCode)
  else
    let cur := cur + 1
    if tag = MAR_TREF then unpRef mem base len st cur idx
    else
      if cur + MAR_I32 > len then (st, .error .badCode)
      else
        let st := markRead st mem (base + cur) MAR_I32
        let l := fromLE (readBytes mem (base + cur) MAR_I32)
        let cur := cur + MAR_I32
        let st := markRead st mem (base + cur) l
        let blob := readBytes mem (base + cur) l
        let faddr := st.heap.length
        let st := { st with heap := st.heap ++ [.ofn ⟨blob, false, []⟩] }
        if cur + l > len then (st, .error .badCode)
        else
          let cur := cur + l
          let st := regPut st idx (.func faddr)
          if cur + MAR_I32 > len then (st, .error .badCode)
          else
            let st := markRead st mem (base + cur) MAR_I32
            let l2 := fromLE (readBytes mem (base + cur) MAR_I32)
            let cur := cur + MAR_I32
            let uaddr := st.heap.length
            let st := { st with heap := st.heap ++ [.otbl ⟨[], none⟩] }
            match prev.2 (base + cur) l2 st 0 (idx + 1) uaddr with
            | (st, .error e) => (st, .error e)
            | (st, .ok _) =>
              let st := setUpvalues st faddr uaddr
              if cur + l2 > len then (st, .error .badCode)
              else (st, .ok (.func faddr, cur + l2, idx + 1))

/-- Decode case LUA_TUSERDATA: back-reference, MAR_TUSR revival, or — for
MAR_TVAL and in fact any other tag byte — just push nil. -/
def unpUsr (c : CallOracle) (prev : UnpValT × MarUnpT) (mem : List Nat) :
    UnpValT := fun base len st cur idx =>
  let st := markRead st mem (base + cur) MAR_CHR
  let tag := byteAt mem (base + cur)
  if cur + MAR_CHR > len then (st, .error .badCode)
  else
    let cur := cur + MAR_CHR
    if tag = MAR_TREF then unpRef mem base len st cur idx
    else if tag = MAR_TUSR then unpOpq c prev mem base len st cur idx
    else (st, .ok (.nil, cur, idx))

/-- One fuel step of `unpack_value(L, buf, len, p, idx)` from lmarshal.c,
decoding one tagged record; `prev` gives the meaning of the two decoding
functions at one unit less fuel.  Arguments after the parameters: the
window `(base, len)`, the instrumented state, the cursor `cur` (so `*p`
is `buf + base + cur`), and the caller's `*idx`.  The type-tag byte is
read (`char val_type = **p`) BEFORE `mar_incr_ptr(MAR_CHR)` checks it is
in the window; the switch then dispatches to the per-type cases above.
A nil tag (LUA_TNIL = 0) or any unknown tag hits the default: "bad
code". -/
def unpStepVal (c : CallOracle) (mem : List Nat) (prev : UnpValT × MarUnpT) :
    UnpValT := fun base len st cur idx =>
  let st := markRead st mem (base + cur) MAR_CHR
  let val_type := byteAt mem (base + cur)
  if cur + MAR_CHR > len then (st, .error .badCode)
  else
    let cur := cur + MAR_CHR
    if val_type = LUA_TBOOLEAN then unpBool mem base len st cur idx
    else if val_type = LUA_TNUMBER then unpNum mem base len st cur idx
    else if val_type = LUA_TSTRING then unpStr mem base len st cur idx
    else if val_type = LUA_TTABLE then unpTbl c prev mem base len st cur idx
    else if val_type = LUA_TFUNCTION then unpFun prev mem base len st cur idx
    else if val_type = LUA_TUSERDATA then unpUsr c prev mem base len st cur idx
    else if val_type = LUA_TTHREAD then (st, .ok (.nil, cur, idx))
    else (st, .error .badCode)

/-- One fuel step of `mar_unpack(L, buf, len, idx)`: decode key/value
pairs and `lua_settable` them into the table at `addr` until the window
is consumed.  The final counter is NOT returned (by-value parameter). -/
def unpStepRec (_c : CallOracle) (_mem : List Nat) (prev : UnpValT × MarUnpT) :
    MarUnpT := fun base len st cur idx addr =>
  if cur < len then
    match prev.1 base len st cur idx with
    | (st, .error e) => (st, .error e)
    | (st, .ok (k, cur, idx)) =>
      match prev.1 base len st cur idx with
      | (st, .error e) => (st, .error e)
      | (st, .ok (v, cur, idx)) =>
        match settableOp st addr k v with
        | (st, .error e) => (st, .error e)
        | (st, .ok _) => prev.2 base len st cur idx addr
  else (st, .ok ())

/-- The fueled pair of decoding functions, built with a plain `Nat.rec`
so that the kernel can evaluate it by direct recursor reduction. -/
def unpGo (c : CallOracle) (mem : List Nat) : Nat → UnpValT × MarUnpT :=
  Nat.rec (motive := fun _ => UnpValT × MarUnpT)
    ⟨fun _ _ st _ _ => (st, .error .noFuel),
     fun _ _ st _ _ _ => (st, .error .noFuel)⟩
    (fun _ prev => ⟨unpStepVal c mem prev, unpStepRec c mem prev⟩)

/-- Model of `unpack_value(L, buf, len, p, idx)` from lmarshal.c. -/
def unpack_value (c : CallOracle) (mem : List Nat) (base len : Nat)
    (fuel : Nat) : UnpSt → Nat → Nat →
    UnpSt × Except MarErr (LuaValue × Nat × Nat) :=
  (unpGo c mem fuel).1 base len

/-- Model of `mar_unpack(L, buf, len, idx)` from lmarshal.c. -/
def mar_unpack (c : CallOracle) (mem : List Nat) (base len : Nat)
    (fuel : Nat) : UnpSt → Nat → Nat → Nat → UnpSt × Except MarErr Unit :=
  (unpGo c mem fuel).2 base len

/-- Model of `tbl_unmarshal`: check the 2-byte header (length and magic), reverse
the whole remaining payload on an endianness-marker mismatch (the host
marker of the little-endian model is 1), create the result and reference
tables, and run `mar_unpack` over the payload with the counter starting
at 1.  The result is the root table. -/
def tbl_unmarshal (c : CallOracle) (fuel : Nat) (s : List Nat) :
    UnpSt × Except MarErr LuaValue :=
  let st0 : UnpSt := ⟨[], [], [], false⟩
  if s.length < 2 then (st0, .error .badHeader)
  else if byteAt s 0 ≠ MAR_MAGIC then (st0, .error .badMagic)
  else
    let payload := s.drop 2
    let st1 : UnpSt := ⟨[.otbl ⟨[], none⟩], [], [], false⟩
    let mem := if byteAt s 1 ≠ 1 then payload.reverse else payload
    match mar_unpack c mem 0 payload.length fuel st1 0 1 0 with
    | (st, .error e) => (st, .error e)
    | (st, .ok _) => (st, .ok (.tbl 0))

/-- Model of `tbl_clone` = marshal then unmarshal (on the little-endian host). -/
def tbl_clone (c : CallOracle) (fuel : Nat) (h : Heap) (root : LuaValue) :
    UnpSt × Except MarErr LuaValue :=
  match tbl_marshal c true fuel h root with
  | .error e => (⟨[], [], [], false⟩, .error e)
  | .ok s => tbl_unmarshal c fuel s

/-! ## Deep equality and path lookup -/

def isScalar : LuaValue → Bool
  | .boolean _ => true
  | .number _ => true
  | .str _ => true
  | _ => false

/-- Depth-bounded deep equality between rooted values of two heaps
(`deepEqN 0` is trivially true; table contents are compared as finite
maps over their — scalar — keys, one more level per unit of depth).
"Deep-equal" means `deepEqN n` for every `n`. -/
def deepEqN : Nat → Heap → LuaValue → Heap → LuaValue → Bool
  | 0, _, _, _, _ => true
  | n + 1, h1, v1, h2, v2 =>
    match v1, v2 with
    | .tbl a, .tbl b =>
      match hget h1 a, hget h2 b with
      | some (.otbl t1), some (.otbl t2) =>
        t1.pairs.all (fun kv => isScalar kv.1) &&
        t2.pairs.all (fun kv => isScalar kv.1) &&
        t1.pairs.all (fun kv =>
          match tget t2.pairs kv.1 with
          | some w => deepEqN n h1 kv.2 h2 w
          | none => false) &&
        t2.pairs.all (fun kv => (tget t1.pairs kv.1).isSome)
      | _, _ => false
    | .tbl _, _ => false
    | _, .tbl _ => false
    | .thread _, .thread _ => true
    | x, y => x = y

def deepEq (h1 : Heap) (v1 : LuaValue) (h2 : Heap) (v2 : LuaValue) : Prop :=
  ∀ n, deepEqN n h1 v1 h2 v2 = true

/-- Follow a chain of table lookups from a root value. -/
def pathLookup (h : Heap) : LuaValue → List LuaValue → Option LuaValue
  | v, [] => some v
  | .tbl a, k :: ks =>
    match hget h a with
    | some (.otbl t) =>
      match tget t.pairs k with
      | some v => pathLookup h v ks
      | none => none
    | _ => none
  | _, _ :: _ => none

instance {ε α : Type} [DecidableEq ε] [DecidableEq α] :
    DecidableEq (Except ε α) :=
  fun x y => match x, y with
  | .ok a, .ok b =>
    if h : a = b then isTrue (congrArg _ h)
    else isFalse (fun c => h (Except.ok.inj c))
  | .error a, .error b =>
    if h : a = b then isTrue (congrArg _ h)
    else isFalse (fun c => h (Except.error.inj c))
  | .ok _, .error _ => isFalse (fun c => Except.noConfusion c)
  | .error _, .ok _ => isFalse (fun c => Except.noConfusion c)

/-! ## Concrete instances used by the claims

Number constants: `dblLE 1 = [0,0,0,0,0,0,240,63]`, `dblLE 5 = [...,20,64]`,
`dblLE 7 = [...,28,64]`.  The default fuel 200 is ample for all of these
(fuel only limits recursion depth and pair count, both tiny here). -/

/-- Oracle for graphs without hooks: no host function is ever called. -/
def noHooks : CallOracle := fun _ _ => none

/-- Heap whose marshalled stream exhibits the non-propagating id counter:
`A(0) = {1 = I}`, `B(1) = {1 = 7}`, `I(2) = {1 = 5}`,
`root(3) = {1 = A, 2 = B, 3 = I}`.  Packing registers A as id 1 and — inside
A's nested record — I as id 2, but `mar_pack` takes the counter by value,
so B is also registered as id 2; the decoder mirrors this and its id 2
slot is overwritten by the clone of B before the back-reference for
`root[3]` is resolved. -/
def c1Heap : Heap :=
  [ .otbl ⟨[(numV 1, .tbl 2)], none⟩,
    .otbl ⟨[(numV 1, numV 7)], none⟩,
    .otbl ⟨[(numV 1, numV 5)], none⟩,
    .otbl ⟨[(numV 1, .tbl 0), (numV 2, .tbl 1), (numV 3, .tbl 2)], none⟩ ]

/-- Self-referential composite: `C(0)` with `C.x = C` (key is the string
"x", byte 120). -/
def selfHeap : Heap := [ .otbl ⟨[(.str [120], .tbl 0)], none⟩ ]

/-- Shared-reference heap whose clone separates the two shared fields:
`A(0) = {1 = I}`, `I(1) = {1 = 5}`, `C(2) = {}`,
`root(3) = {1 = A, 2 = I, 3 = C, 4 = I}`.  Fields 2 and 4 of the root point
at the same instance I; during decode the id-2 slot is overwritten by the
clone of C between resolving the two back-references. -/
def shrHeap : Heap :=
  [ .otbl ⟨[(numV 1, .tbl 1)], none⟩,
    .otbl ⟨[(numV 1, numV 5)], none⟩,
    .otbl ⟨[], none⟩,
    .otbl ⟨[(numV 1, .tbl 0), (numV 2, .tbl 1), (numV 3, .tbl 2), (numV 4, .tbl 1)],
      none⟩ ]

/-- Benign sharing: `I(0) = {1 = 5}`, `root(1) = {1 = I, 2 = I}`. -/
def shareHeap : Heap :=
  [ .otbl ⟨[(numV 1, numV 5)], none⟩,
    .otbl ⟨[(numV 1, .tbl 0), (numV 2, .tbl 0)], none⟩ ]

/-- Stream whose single pair is key `1` and, in VALUE position, a table
back-reference (tag 5, sub-tag `MAR_TREF`) to the never-registered id 99. -/
def s4val : List Nat := [142, 1] ++ [3] ++ dblLE 1 ++ [5, 1] ++ toLE 4 99

/-- Stream with the unregistered back-reference in KEY position. -/
def s4key : List Nat := [142, 1] ++ [5, 1] ++ toLE 4 99 ++ [3] ++ dblLE 1

/-- Heap for the truncation claim: `root(0) = {1 = 5, 2 = 6}`. -/
def c6Heap : Heap :=
  [ .otbl ⟨[(numV 1, numV 5), (numV 2, numV 6)], none⟩ ]

/-- The marshalled bytes of `c6Heap` (38 bytes: 2-byte header plus two
9-byte number records per pair). -/
def s6 : List Nat :=
  [142, 1,
   3, 0, 0, 0, 0, 0, 0, 240, 63, 3, 0, 0, 0, 0, 0, 0, 20, 64,
   3, 0, 0, 0, 0, 0, 0, 0, 64, 3, 0, 0, 0, 0, 0, 0, 24, 64]

/-- Heap for the persist-hook claim: userdata `u(0)` whose `__persist`
metafield is the host function at address 1; the reviver closure the hook
returns lives at address 2 (bytecode blob `[170]`, no upvalues);
`root(3) = {1 = u}`. -/
def c7Heap : Heap :=
  [ .ousr ⟨some (.func 1)⟩,
    .ofn ⟨[187], false, []⟩,
    .ofn ⟨[170], false, []⟩,
    .otbl ⟨[(numV 1, .usr 0)], none⟩ ]

/-- Distinguishing oracle: the persist hook (address 1) yields the reviver
at address 2; every other call — in particular the reviver invocation at
decode time — returns `true` exactly when the argument list is empty and
`false` otherwise.  If the decoder passed the captured-state record as the
sole argument, the decoded field would be `boolean false`. -/
def c7c : CallOracle := fun f args =>
  if f = .func 1 then some (.func 2)
  else if args.isEmpty then some (.boolean true) else some (.boolean false)

/-- The marshalled bytes of `c7Heap` under any oracle whose hook call
returns the reviver at address 2: header, key 1, then the `MAR_TUSR`
record whose 20-byte body is the packed one-element wrapper
`{1 = reviver}` — and nothing else: no separately packed captured-state
record follows. -/
def s7 : List Nat :=
  [142, 1,
   3, 0, 0, 0, 0, 0, 0, 240, 63,
   7, 3, 20, 0, 0, 0,
   3, 0, 0, 0, 0, 0, 0, 240, 63,
   6, 2, 1, 0, 0, 0, 170, 0, 0, 0, 0]

/-- Record with a coroutine-like value in KEY position:
`root(0) = {co = 5}` where the key is the thread at address 0. -/
def thrKeyHeap : Heap := [ .otbl ⟨[(.thread 0, numV 5)], none⟩ ]

/-- Record with a coroutine-like value and a hook-less userdata in VALUE
positions: `u(0)` has no `__persist` metafield,
`root(1) = {1 = co, 2 = u, 3 = 5}`. -/
def c8Heap : Heap :=
  [ .ousr ⟨none⟩,
    .otbl ⟨[(numV 1, .thread 0), (numV 2, .usr 0), (numV 3, numV 5)], none⟩ ]

/-- Single-scalar-pair heap for the endianness claim:
`root(0) = {5 = 7}`. -/
def c9Heap : Heap := [ .otbl ⟨[(numV 5, numV 7)], none⟩ ]

/-- The stream a big-endian host produces for `c9Heap`: magic, marker 0,
then for each number a tag byte (the FIRST byte of the int `val_type`,
which is 0 on a big-endian host) followed by the double's 8 bytes in
big-endian order. -/
def s9 : List Nat :=
  [142, 0, 0, 64, 20, 0, 0, 0, 0, 0, 0, 0, 64, 28, 0, 0, 0, 0, 0, 0]

/-- Three-byte stream: header plus a bare `LUA_TNUMBER` tag; the decoder
reads the 8 number bytes (all outside the buffer) before its bound check
rejects the record. -/
def s3 : List Nat := [142, 1, 3]

/-- Reviver-distinguishing oracle variant of `c7c`: zero-argument calls
return the string [99] instead. -/
def c7d : CallOracle := fun f args =>
  if f = .func 1 then some (.func 2)
  else if args.isEmpty then some (.str [99]) else some (.boolean false)

/-- Degenerate hook oracle whose persist call does not return a function. -/
def c7bad : CallOracle := fun _ _ => some (.boolean true)

/-! ## Self-contained value encodings (definitions for the universal
scalar/thread/userdata pair-list lemmas) -/

/-- Scalar well-formedness: the value is a boolean, a number whose byte
representation is 8 well-formed non-NaN bytes, or a string of bytes that
fits the 32-bit length field. -/
def scalarWF : LuaValue → Prop
  | .boolean _ => True
  | .number nb => nb.length = 8 ∧ (∀ b ∈ nb, b < 256) ∧ isNaN8 nb = false
  | .str s => (∀ b ∈ s, b < 256) ∧ s.length ≤ 2 ^ 32 - 1
  | _ => False

/-- The bytes `pack_value` emits (on the little-endian host) for a value
whose encoding neither consults nor changes the shared reference table:
scalars, threads (bare tag) and hook-less userdata (tag + MAR_TVAL). -/
def sbytes : LuaValue → List Nat
  | .boolean b => [1, if b then 1 else 0]
  | .number nb => 3 :: nb
  | .str s => 4 :: (toLE 4 (s.length % 2 ^ 32) ++ s)
  | .thread _ => [8]
  | .usr _ => [7, 2]
  | _ => []

/-- Byte-level well-formedness of a self-contained encodable value,
independent of the heap (what the decoder side needs). -/
def vPure : LuaValue → Prop
  | .boolean _ => True
  | .number nb => nb.length = 8 ∧ (∀ b ∈ nb, b < 256)
  | .str s => (∀ b ∈ s, b < 256) ∧ s.length ≤ 2 ^ 32 - 1
  | .thread _ => True
  | .usr _ => True
  | _ => False

/-- Well-formedness on the pack side: scalars as in `scalarWF`, threads
always, userdata only when its heap object carries no persist hook. -/
def vWF (h : Heap) : LuaValue → Prop
  | .boolean _ => True
  | .number nb => nb.length = 8 ∧ (∀ b ∈ nb, b < 256) ∧ isNaN8 nb = false
  | .str s => (∀ b ∈ s, b < 256) ∧ s.length ≤ 2 ^ 32 - 1
  | .thread _ => True
  | .usr a => hget h a = some (.ousr ⟨none⟩)
  | _ => False

/-- What the decoder reconstructs for such a value: scalars come back
verbatim, threads and hook-less userdata come back as nil. -/
def vdecode : LuaValue → LuaValue
  | .thread _ => .nil
  | .usr _ => .nil
  | v => v

/-- Encoded length of a self-contained value (arithmetic-normal form of
the length of `sbytes`). -/
def slen : LuaValue → Nat
  | .boolean _ => 2
  | .number _ => 9
  | .str s => 5 + s.length
  | .thread _ => 1
  | .usr _ => 2
  | _ => 0

/-! Pair lists of self-contained values -/

/-- Concatenated encoding of a key/value pair list (keys scalar, values
self-contained). -/
def pairsBytes : List (LuaValue × LuaValue) → List Nat
  | [] => []
  | (k, v) :: rest => sbytes k ++ (sbytes v ++ pairsBytes rest)

/-- Decoder-side well-formedness of a pair list. -/
def pairsPure : List (LuaValue × LuaValue) → Prop
  | [] => True
  | (k, v) :: rest => scalarWF k ∧ vPure v ∧ pairsPure rest

/-- Pack-side well-formedness of a pair list over a heap. -/
def pairsWF (h : Heap) : List (LuaValue × LuaValue) → Prop
  | [] => True
  | (k, v) :: rest => scalarWF k ∧ vWF h v ∧ pairsWF h rest

/-- All-scalar pair list (keys and values). -/
def spairsWF : List (LuaValue × LuaValue) → Prop
  | [] => True
  | (k, v) :: rest => scalarWF k ∧ scalarWF v ∧ spairsWF rest

/-- Cumulative effect on the decoder state of `lua_settable`-ing the
decoded pairs into the table at `addr`, in order. -/
def storePairs (addr : Nat) (st : UnpSt) :
    List (LuaValue × LuaValue) → UnpSt
  | [] => st
  | (k, v) :: rest =>
    storePairs addr
      (match hget st.heap addr with
       | some (.otbl t) =>
         { st with
           heap := hset st.heap addr (.otbl { t with pairs := tset t.pairs k (vdecode v) }) }
       | _ => st) rest

/-- The same effect at the association-list level. -/
def tsetFold (ps : List (LuaValue × LuaValue))
    (acc : List (LuaValue × LuaValue)) : List (LuaValue × LuaValue) :=
  ps.foldl (fun a kv => tset a kv.1 (vdecode kv.2)) acc

/-! ## Decoder bound-check analysis (helper lemmas)

The decoder reads bytes before the corresponding `mar_incr_ptr` check, so
it can touch bytes outside the supplied range; these lemmas show that any
such read forces the whole decode to abort: a successful decode implies
the instrumentation flag `oob` is unchanged (window containment is only
assumed for the top-level window; nested windows earn it from the
`mar_incr_ptr(l)` that follows them).
-/

theorem markRead_oob (st : UnpSt) (mem : List Nat) (i k : Nat) :
    (markRead st mem i k).oob
      = if k = 0 ∨ i + k ≤ mem.length then st.oob else true := by
  unfold markRead
  split <;> rfl

theorem settableOp_ok_oob {st st' : UnpSt} {addr : Nat} {k v : LuaValue}
    {u : Unit} (h : settableOp st addr k v = (st', Except.ok u)) :
    st'.oob = st.oob := by
  unfold settableOp at h
  split at h
  · simp at h
  · split at h
    · simp at h
    · split at h
      · cases h
        rfl
      · simp at h

theorem setUpvalues_oob (st : UnpSt) (f u : Nat) :
    (setUpvalues st f u).oob = st.oob := by
  unfold setUpvalues
  split <;> rfl

theorem unpBool_oob {mem : List Nat} {base len st cur idx st' out}
    (hlen : base + len ≤ mem.length)
    (h : unpBool mem base len st cur idx = (st', Except.ok out)) :
    st'.oob = st.oob := by
  unfold unpBool at h
  split at h
  · exact absurd (congrArg Prod.snd h) (by simp)
  · injection h with h1 h2
    subst h1
    simp only [markRead_oob, MAR_CHR] at *
    split_ifs <;> first | rfl | (exfalso; omega)

theorem unpNum_oob {mem : List Nat} {base len st cur idx st' out}
    (hlen : base + len ≤ mem.length)
    (h : unpNum mem base len st cur idx = (st', Except.ok out)) :
    st'.oob = st.oob := by
  unfold unpNum at h
  split at h
  · exact absurd (congrArg Prod.snd h) (by simp)
  · injection h with h1 h2
    subst h1
    simp only [markRead_oob, MAR_I64] at *
    split_ifs <;> first | rfl | (exfalso; omega)

theorem unpStr_oob {mem : List Nat} {base len st cur idx st' out}
    (hlen : base + len ≤ mem.length)
    (h : unpStr mem base len st cur idx = (st', Except.ok out)) :
    st'.oob = st.oob := by
  unfold unpStr at h
  split at h
  · exact absurd (congrArg Prod.snd h) (by simp)
  · try simp only [] at h
    split at h
    · exact absurd (congrArg Prod.snd h) (by simp)
    · injection h with h1 h2
      subst h1
      simp only [markRead_oob, MAR_I32] at *
      split_ifs <;> first | rfl | (exfalso; omega)

theorem unpRef_oob {mem : List Nat} {base len st cur idx st' out}
    (hlen : base + len ≤ mem.length)
    (h : unpRef mem base len st cur idx = (st', Except.ok out)) :
    st'.oob = st.oob := by
  unfold unpRef at h
  split at h
  · exact absurd (congrArg Prod.snd h) (by simp)
  · injection h with h1 h2
    subst h1
    simp only [markRead_oob, MAR_I32] at *
    split_ifs <;> first | rfl | (exfalso; omega)



theorem unpVal_oob {mem : List Nat} {prev : UnpValT × MarUnpT}
    (ih2 : ∀ base len st cur idx addr st' out, base + len ≤ mem.length →
      prev.2 base len st cur idx addr = (st', Except.ok out) →
      st'.oob = st.oob)
    {base len st cur idx st' out}
    (hlen : base + len ≤ mem.length)
    (h : unpVal prev mem base len st cur idx = (st', Except.ok out)) :
    st'.oob = st.oob := by
  unfold unpVal at h
  split at h
  · exact absurd (congrArg Prod.snd h) (by simp)
  · try simp only [] at h
    split at h
    next st1 e heq => exact absurd (congrArg Prod.snd h) (by simp)
    next st1 u heq =>
      split at h
      · exact absurd (congrArg Prod.snd h) (by simp)
      · injection h with h1 h2
        subst h1
        have e := ih2 _ _ _ _ _ _ _ _ (by omega) heq
        rw [e]
        simp only [regPut, markRead_oob, MAR_CHR, MAR_I32, MAR_I64] at *
        split_ifs <;> first | rfl | (exfalso; omega)

theorem unpOpq_oob {c : CallOracle} {mem : List Nat} {prev : UnpValT × MarUnpT}
    (ih2 : ∀ base len st cur idx addr st' out, base + len ≤ mem.length →
      prev.2 base len st cur idx addr = (st', Except.ok out) →
      st'.oob = st.oob)
    {base len st cur idx st' out}
    (hlen : base + len ≤ mem.length)
    (h : unpOpq c prev mem base len st cur idx = (st', Except.ok out)) :
    st'.oob = st.oob := by
  unfold unpOpq at h
  split at h
  · exact absurd (congrArg Prod.snd h) (by simp)
  · try simp only [] at h
    split at h
    next st1 e heq => exact absurd (congrArg Prod.snd h) (by simp)
    next st1 u heq =>
      split at h
      next heqc => exact absurd (congrArg Prod.snd h) (by simp)
      next res heqc =>
        split at h
        · exact absurd (congrArg Prod.snd h) (by simp)
        · injection h with h1 h2
          subst h1
          have e := ih2 _ _ _ _ _ _ _ _ (by omega) heq
          simp only [regPut]
          rw [e]
          simp only [markRead_oob, MAR_CHR, MAR_I32, MAR_I64] at *
          split_ifs <;> first | rfl | (exfalso; omega)



theorem unpTbl_oob {c : CallOracle} {mem : List Nat} {prev : UnpValT × MarUnpT}
    (ih2 : ∀ base len st cur idx addr st' out, base + len ≤ mem.length →
      prev.2 base len st cur idx addr = (st', Except.ok out) →
      st'.oob = st.oob)
    {base len st cur idx st' out}
    (hlen : base + len ≤ mem.length)
    (h : unpTbl c prev mem base len st cur idx = (st', Except.ok out)) :
    st'.oob = st.oob := by
  unfold unpTbl at h
  split at h
  · exact absurd (congrArg Prod.snd h) (by simp)
  · try simp only [] at h
    split at h
    · rw [unpRef_oob hlen h]
      simp only [markRead_oob, MAR_CHR, MAR_I32, MAR_I64] at *
      split_ifs <;> first | rfl | (exfalso; omega)
    · split at h
      · rw [unpVal_oob ih2 hlen h]
        simp only [markRead_oob, MAR_CHR, MAR_I32, MAR_I64] at *
        split_ifs <;> first | rfl | (exfalso; omega)
      · split at h
        · rw [unpOpq_oob ih2 hlen h]
          simp only [markRead_oob, MAR_CHR, MAR_I32, MAR_I64] at *
          split_ifs <;> first | rfl | (exfalso; omega)
        · exact absurd (congrArg Prod.snd h) (by simp)

theorem unpUsr_oob {c : CallOracle} {mem : List Nat} {prev : UnpValT × MarUnpT}
    (ih2 : ∀ base len st cur idx addr st' out, base + len ≤ mem.length →
      prev.2 base len st cur idx addr = (st', Except.ok out) →
      st'.oob = st.oob)
    {base len st cur idx st' out}
    (hlen : base + len ≤ mem.length)
    (h : unpUsr c prev mem base len st cur idx = (st', Except.ok out)) :
    st'.oob = st.oob := by
  unfold unpUsr at h
  split at h
  · exact absurd (congrArg Prod.snd h) (by simp)
  · try simp only [] at h
    split at h
    · rw [unpRef_oob hlen h]
      simp only [markRead_oob, MAR_CHR, MAR_I32, MAR_I64] at *
      split_ifs <;> first | rfl | (exfalso; omega)
    · split at h
      · rw [unpOpq_oob ih2 hlen h]
        simp only [markRead_oob, MAR_CHR, MAR_I32, MAR_I64] at *
        split_ifs <;> first | rfl | (exfalso; omega)
      · injection h with h1 h2
        subst h1
        simp only [markRead_oob, MAR_CHR, MAR_I32, MAR_I64] at *
        split_ifs <;> first | rfl | (exfalso; omega)

theorem unpFun_oob {mem : List Nat} {prev : UnpValT × MarUnpT}
    (ih2 : ∀ base len st cur idx addr st' out, base + len ≤ mem.length →
      prev.2 base len st cur idx addr = (st', Except.ok out) →
      st'.oob = st.oob)
    {base len st cur idx st' out}
    (hlen : base + len ≤ mem.length)
    (h : unpFun prev mem base len st cur idx = (st', Except.ok out)) :
    st'.oob = st.oob := by
  unfold unpFun at h
  split at h
  · exact absurd (congrArg Prod.snd h) (by simp)
  · try simp only [] at h
    split at h
    · rw [unpRef_oob hlen h]
      simp only [markRead_oob, MAR_CHR, MAR_I32, MAR_I64] at *
      split_ifs <;> first | rfl | (exfalso; omega)
    · split at h
      · exact absurd (congrArg Prod.snd h) (by simp)
      · try simp only [] at h
        split at h
        · exact absurd (congrArg Prod.snd h) (by simp)
        · try simp only [] at h
          split at h
          · exact absurd (congrArg Prod.snd h) (by simp)
          · try simp only [] at h
            split at h
            next st1 e heq => exact absurd (congrArg Prod.snd h) (by simp)
            next st1 u heq =>
              split at h
              · exact absurd (congrArg Prod.snd h) (by simp)
              · injection h with h1 h2
                subst h1
                rw [setUpvalues_oob]
                have e := ih2 _ _ _ _ _ _ _ _ (by omega) heq
                rw [e]
                simp only [regPut, markRead_oob, MAR_CHR, MAR_I32, MAR_I64] at *
                split_ifs <;> first | rfl | (exfalso; omega)

theorem unpStepVal_oob {c : CallOracle} {mem : List Nat}
    {prev : UnpValT × MarUnpT}
    (ih2 : ∀ base len st cur idx addr st' out, base + len ≤ mem.length →
      prev.2 base len st cur idx addr = (st', Except.ok out) →
      st'.oob = st.oob)
    {base len st cur idx st' out}
    (hlen : base + len ≤ mem.length)
    (h : unpStepVal c mem prev base len st cur idx = (st', Except.ok out)) :
    st'.oob = st.oob := by
  unfold unpStepVal at h
  split at h
  · exact absurd (congrArg Prod.snd h) (by simp)
  · try simp only [] at h
    split at h
    · rw [unpBool_oob hlen h]
      simp only [markRead_oob, MAR_CHR, MAR_I32, MAR_I64] at *
      split_ifs <;> first | rfl | (exfalso; omega)
    · split at h
      · rw [unpNum_oob hlen h]
        simp only [markRead_oob, MAR_CHR, MAR_I32, MAR_I64] at *
        split_ifs <;> first | rfl | (exfalso; omega)
      · split at h
        · rw [unpStr_oob hlen h]
          simp only [markRead_oob, MAR_CHR, MAR_I32, MAR_I64] at *
          split_ifs <;> first | rfl | (exfalso; omega)
        · split at h
          · rw [unpTbl_oob ih2 hlen h]
            simp only [markRead_oob, MAR_CHR, MAR_I32, MAR_I64] at *
            split_ifs <;> first | rfl | (exfalso; omega)
          · split at h
            · rw [unpFun_oob ih2 hlen h]
              simp only [markRead_oob, MAR_CHR, MAR_I32, MAR_I64] at *
              split_ifs <;> first | rfl | (exfalso; omega)
            · split at h
              · rw [unpUsr_oob ih2 hlen h]
                simp only [markRead_oob, MAR_CHR, MAR_I32, MAR_I64] at *
                split_ifs <;> first | rfl | (exfalso; omega)
              · split at h
                · injection h with h1 h2
                  subst h1
                  simp only [markRead_oob]
                  split_ifs <;> first | rfl | (exfalso; omega)
                · exact absurd (congrArg Prod.snd h) (by simp)


theorem unpStepRec_oob (c : CallOracle) (mem : List Nat)
    (prev : UnpValT × MarUnpT)
    (ih1 : ∀ base len st cur idx st' out, base + len ≤ mem.length →
      prev.1 base len st cur idx = (st', Except.ok out) → st'.oob = st.oob)
    (ih2 : ∀ base len st cur idx addr st' out, base + len ≤ mem.length →
      prev.2 base len st cur idx addr = (st', Except.ok out) →
      st'.oob = st.oob) :
    ∀ base len st cur idx addr st' out, base + len ≤ mem.length →
      unpStepRec c mem prev base len st cur idx addr = (st', Except.ok out) →
      st'.oob = st.oob := by
  intro base len st cur idx addr st' out hlen h
  simp only [unpStepRec] at h
  split at h
  · split at h
    next st1 e heq => exact absurd (congrArg Prod.snd h) (by simp)
    next st1 kv cur1 idx1 heq =>
      split at h
      next st2 e heq2 => exact absurd (congrArg Prod.snd h) (by simp)
      next st2 vv cur2 idx2 heq2 =>
        split at h
        next st3 e heq3 => exact absurd (congrArg Prod.snd h) (by simp)
        next st3 u3 heq3 =>
          have e4 := ih2 base len st3 cur2 idx2 addr st' out hlen h
          have e3 := settableOp_ok_oob heq3
          have e2 := ih1 base len st1 cur1 idx1 st2 _ hlen heq2
          have e1 := ih1 base len st cur idx st1 _ hlen heq
          rw [e4, e3, e2, e1]
  · injection h with h1 h2
    subst h1
    rfl


theorem unpGo_oob (c : CallOracle) (mem : List Nat) : ∀ fuel : Nat,
    (∀ base len st cur idx st' out, base + len ≤ mem.length →
      (unpGo c mem fuel).1 base len st cur idx = (st', Except.ok out) →
      st'.oob = st.oob) ∧
    (∀ base len st cur idx addr st' out, base + len ≤ mem.length →
      (unpGo c mem fuel).2 base len st cur idx addr = (st', Except.ok out) →
      st'.oob = st.oob) := by
  intro fuel
  induction fuel with
  | zero =>
    constructor
    · intro base len st cur idx st' out _ h
      exact Except.noConfusion (congrArg Prod.snd h)
    · intro base len st cur idx addr st' out _ h
      exact Except.noConfusion (congrArg Prod.snd h)
  | succ n ih =>
    constructor
    · intro base len st cur idx st' out hlen h
      exact unpStepVal_oob ih.2 hlen h
    · intro base len st cur idx addr st' out hlen h
      exact unpStepRec_oob c mem (unpGo c mem n) ih.1 ih.2
        base len st cur idx addr st' out hlen h

theorem tbl_unmarshal_ok_no_oob (c : CallOracle) (fuel : Nat)
    (s : List Nat) (st : UnpSt) (v : LuaValue)
    (h : tbl_unmarshal c fuel s = (st, Except.ok v)) : st.oob = false := by
  unfold tbl_unmarshal at h
  split at h
  · exact absurd (congrArg Prod.snd h) (by simp)
  · split at h
    · exact absurd (congrArg Prod.snd h) (by simp)
    · try simp only [] at h
      split at h
      next st1 e heq => exact absurd (congrArg Prod.snd h) (by simp)
      next st1 u heq =>
        injection h with h1 h2
        subst h1
        have hlen : 0 + (s.drop 2).length
            ≤ (if byteAt s 1 ≠ 1 then (s.drop 2).reverse else s.drop 2).length := by
          split <;> simp
        have e := (unpGo_oob c _ fuel).2 _ _ _ _ _ _ _ _ hlen heq
        rw [e]

/-! ## Symbolic execution of self-contained encodings -/

/-! Byte-position lemmas -/

theorem byteAt_append_right (pre rest : List Nat) (j : Nat) :
    byteAt (pre ++ rest) (pre.length + j) = byteAt rest j := by
  simp only [byteAt, List.getD]
  rw [List.get?_append_right (by omega)]
  simp

theorem readBytes_append_right (pre rest : List Nat) (j k : Nat) :
    readBytes (pre ++ rest) (pre.length + j) k = readBytes rest j k := by
  unfold readBytes
  apply List.map_congr_left
  intro i _
  rw [show pre.length + j + i = pre.length + (j + i) by omega,
    byteAt_append_right]

theorem byteAt_cons_zero (x : Nat) (rest : List Nat) :
    byteAt (x :: rest) 0 = x % 256 := rfl

theorem byteAt_cons_succ (x : Nat) (rest : List Nat) (j : Nat) :
    byteAt (x :: rest) (j + 1) = byteAt rest j := rfl

theorem readBytes_zero (mem : List Nat) (i : Nat) : readBytes mem i 0 = [] := rfl

theorem readBytes_succ_cons (x : Nat) (rest : List Nat) (k : Nat) :
    readBytes (x :: rest) 0 (k + 1) = (x % 256) :: readBytes rest 0 k := by
  unfold readBytes
  rw [List.range_succ_eq_map]
  simp only [List.map_cons, List.map_map]
  refine congrArg₂ _ rfl ?_
  apply List.map_congr_left
  intro i _
  simp [Function.comp, byteAt, Nat.succ_eq_add_one, Nat.add_comm]

theorem readBytes_full (xs : List Nat) (post : List Nat)
    (h : ∀ b ∈ xs, b < 256) :
    readBytes (xs ++ post) 0 xs.length = xs := by
  induction xs with
  | nil => rfl
  | cons x rest ih =>
    rw [List.cons_append, List.length_cons, readBytes_succ_cons,
      Nat.mod_eq_of_lt (h x (by simp))]
    rw [ih (fun b hb => h b (by simp [hb]))]

theorem fromLE_toLE (w v : Nat) : fromLE (toLE w v) = v % 2 ^ (8 * w) := by
  induction w generalizing v with
  | zero => simp [toLE, fromLE, Nat.mod_one]
  | succ n ih =>
    show fromLE ((v % 256) :: toLE n (v / 256)) = _
    simp only [fromLE, List.foldr_cons] at *
    rw [ih]
    rw [Nat.mod_mod_of_dvd _ (by norm_num),
      show 8 * (n + 1) = 8 + 8 * n by ring, Nat.pow_add,
      show (2 : Nat) ^ 8 * 2 ^ (8 * n) = 256 * 2 ^ (8 * n) by norm_num,
      Nat.mod_mul]

theorem toLE_length (w v : Nat) : (toLE w v).length = w := by
  induction w generalizing v with
  | zero => rfl
  | succ n ih => simp [toLE, ih]

theorem toLE_lt (w v : Nat) : ∀ b ∈ toLE w v, b < 256 := by
  induction w generalizing v with
  | zero => simp [toLE]
  | succ n ih =>
    intro b hb
    simp only [toLE, List.mem_cons] at hb
    rcases hb with h | h
    · omega
    · exact ih _ b h

theorem markRead_of_le {st : UnpSt} {mem : List Nat} {i k : Nat}
    (h : i + k ≤ mem.length) : markRead st mem i k = st := by
  unfold markRead
  rw [if_pos (Or.inr h)]

theorem byteAt_of_layout {mem pre post : List Nat} {x i : Nat}
    (hmem : mem = pre ++ (x :: post)) (hi : i = pre.length) (hx : x < 256) :
    byteAt mem i = x := by
  subst hmem hi
  have := byteAt_append_right pre (x :: post) 0
  simp only [Nat.add_zero] at this
  rw [this, byteAt_cons_zero, Nat.mod_eq_of_lt hx]

theorem readBytes_of_layout {mem pre xs post : List Nat} {i k : Nat}
    (hmem : mem = pre ++ (xs ++ post)) (hi : i = pre.length)
    (hk : k = xs.length) (hxs : ∀ b ∈ xs, b < 256) :
    readBytes mem i k = xs := by
  subst hmem hi hk
  have := readBytes_append_right pre (xs ++ post) 0 xs.length
  simpa [readBytes_full xs post hxs] using this

theorem unpGo_scalar_bool (c : CallOracle) (mem : List Nat)
    (fuel base len cur idx : Nat) (st : UnpSt) (b : Bool)
    (pre post : List Nat)
    (hmem : mem = pre ++ (sbytes (.boolean b) ++ post))
    (hpos : base + cur = pre.length)
    (hwin : cur + 2 ≤ len) (hlen : base + len ≤ mem.length) :
    (unpGo c mem (fuel + 1)).1 base len st cur idx
      = (st, .ok (.boolean b, cur + 2, idx)) := by
  have hb0 : byteAt mem (base + cur) = 1 :=
    byteAt_of_layout (by simpa [sbytes] using hmem) hpos (by omega)
  have hb1 : byteAt mem (base + (cur + 1)) = if b then 1 else 0 :=
    byteAt_of_layout
      (show mem = (pre ++ [1]) ++ ((if b then 1 else 0) :: post) by
        simp [hmem, sbytes])
      (by simp only [List.length_append, List.length_cons, List.length_nil]
          omega)
      (by cases b <;> simp)
  have hm0 : markRead st mem (base + cur) 1 = st :=
    markRead_of_le (by omega)
  have hm1 : markRead st mem (base + (cur + 1)) 1 = st :=
    markRead_of_le (by omega)
  show unpStepVal c mem (unpGo c mem fuel) base len st cur idx = _
  unfold unpStepVal unpBool
  simp [hb0, hb1, hm0, hm1, MAR_CHR, LUA_TBOOLEAN,
    show ¬(cur + 1 > len) by omega, show ¬(cur + 1 + 1 > len) by omega]

theorem unpGo_scalar_num (c : CallOracle) (mem : List Nat)
    (fuel base len cur idx : Nat) (st : UnpSt) (nb : List Nat)
    (pre post : List Nat)
    (hnb : nb.length = 8) (hnbb : ∀ b ∈ nb, b < 256)
    (hmem : mem = pre ++ (sbytes (.number nb) ++ post))
    (hpos : base + cur = pre.length)
    (hwin : cur + 9 ≤ len) (hlen : base + len ≤ mem.length) :
    (unpGo c mem (fuel + 1)).1 base len st cur idx
      = (st, .ok (.number nb, cur + 9, idx)) := by
  have hb0 : byteAt mem (base + cur) = 3 :=
    byteAt_of_layout (by simpa [sbytes] using hmem) hpos (by omega)
  have hr : readBytes mem (base + (cur + 1)) 8 = nb :=
    readBytes_of_layout
      (show mem = (pre ++ [3]) ++ (nb ++ post) by simp [hmem, sbytes])
      (by simp only [List.length_append, List.length_cons, List.length_nil]
          omega)
      hnb.symm hnbb
  have hm0 : markRead st mem (base + cur) 1 = st :=
    markRead_of_le (by omega)
  have hm1 : markRead st mem (base + (cur + 1)) 8 = st :=
    markRead_of_le (by omega)
  show unpStepVal c mem (unpGo c mem fuel) base len st cur idx = _
  unfold unpStepVal unpNum
  simp [hb0, hr, hm0, hm1, MAR_CHR, MAR_I64, LUA_TBOOLEAN, LUA_TNUMBER,
    show ¬(cur + 1 > len) by omega, show ¬(cur + 1 + 8 > len) by omega]

theorem unpGo_scalar_str (c : CallOracle) (mem : List Nat)
    (fuel base len cur idx : Nat) (st : UnpSt) (s : List Nat)
    (pre post : List Nat)
    (hsb : ∀ b ∈ s, b < 256) (hslen : s.length ≤ 2 ^ 32 - 1)
    (hmem : mem = pre ++ (sbytes (.str s) ++ post))
    (hpos : base + cur = pre.length)
    (hwin : cur + 5 + s.length ≤ len) (hlen : base + len ≤ mem.length) :
    (unpGo c mem (fuel + 1)).1 base len st cur idx
      = (st, .ok (.str s, cur + 5 + s.length, idx)) := by
  have hb0 : byteAt mem (base + cur) = 4 :=
    byteAt_of_layout (by simpa [sbytes] using hmem) hpos (by omega)
  have hr4 : readBytes mem (base + (cur + 1)) 4 = toLE 4 (s.length % 2 ^ 32) :=
    readBytes_of_layout
      (show mem = (pre ++ [4]) ++ (toLE 4 (s.length % 2 ^ 32) ++ (s ++ post)) by
        simp [hmem, sbytes])
      (by simp only [List.length_append, List.length_cons, List.length_nil]
          omega)
      (toLE_length 4 _).symm (toLE_lt 4 _)
  have h32 : (2 : Nat) ^ 32 = 4294967296 := by norm_num
  have hmod : s.length % 2 ^ 32 = s.length := Nat.mod_eq_of_lt (by omega)
  have hl : fromLE (toLE 4 s.length) = s.length := by
    rw [fromLE_toLE]
    simpa using hmod
  have hrs : readBytes mem (base + (cur + 1 + 4)) s.length = s :=
    readBytes_of_layout
      (show mem = (pre ++ [4] ++ toLE 4 (s.length % 2 ^ 32)) ++ (s ++ post) by
        simp [hmem, sbytes])
      (by simp only [List.length_append, List.length_cons, List.length_nil,
            toLE_length]
          omega)
      rfl hsb
  have hm0 : markRead st mem (base + cur) 1 = st :=
    markRead_of_le (by omega)
  have hm1 : markRead st mem (base + (cur + 1)) 4 = st :=
    markRead_of_le (by omega)
  have hm2 : markRead st mem (base + (cur + 1 + 4)) s.length = st :=
    markRead_of_le (by omega)
  show unpStepVal c mem (unpGo c mem fuel) base len st cur idx = _
  unfold unpStepVal unpStr
  simp [hb0, hr4, hmod, hl, hrs, hm0, hm1, hm2, MAR_CHR, MAR_I32,
    LUA_TBOOLEAN, LUA_TNUMBER, LUA_TSTRING,
    show ¬(cur + 1 > len) by omega, show ¬(cur + 1 + 4 > len) by omega,
    show ¬(cur + 1 + 4 + s.length > len) by omega]
  have hmodB : s.length % 4294967296 = s.length := by
    rw [← h32]; exact hmod
  rw [hmodB, hl, hrs, hm2, if_neg (by omega)]

theorem unpGo_scalar_thr (c : CallOracle) (mem : List Nat)
    (fuel base len cur idx a : Nat) (st : UnpSt)
    (pre post : List Nat)
    (hmem : mem = pre ++ (sbytes (.thread a) ++ post))
    (hpos : base + cur = pre.length)
    (hwin : cur + 1 ≤ len) (hlen : base + len ≤ mem.length) :
    (unpGo c mem (fuel + 1)).1 base len st cur idx
      = (st, .ok (.nil, cur + 1, idx)) := by
  have hb0 : byteAt mem (base + cur) = 8 :=
    byteAt_of_layout (by simpa [sbytes] using hmem) hpos (by omega)
  have hm0 : markRead st mem (base + cur) 1 = st :=
    markRead_of_le (by omega)
  show unpStepVal c mem (unpGo c mem fuel) base len st cur idx = _
  unfold unpStepVal
  simp [hb0, hm0, MAR_CHR, LUA_TBOOLEAN, LUA_TNUMBER, LUA_TSTRING,
    LUA_TTABLE, LUA_TFUNCTION, LUA_TUSERDATA, LUA_TTHREAD,
    show ¬(cur + 1 > len) by omega]

theorem unpGo_scalar_usr (c : CallOracle) (mem : List Nat)
    (fuel base len cur idx a : Nat) (st : UnpSt)
    (pre post : List Nat)
    (hmem : mem = pre ++ (sbytes (.usr a) ++ post))
    (hpos : base + cur = pre.length)
    (hwin : cur + 2 ≤ len) (hlen : base + len ≤ mem.length) :
    (unpGo c mem (fuel + 1)).1 base len st cur idx
      = (st, .ok (.nil, cur + 2, idx)) := by
  have hb0 : byteAt mem (base + cur) = 7 :=
    byteAt_of_layout (by simpa [sbytes] using hmem) hpos (by omega)
  have hb1 : byteAt mem (base + (cur + 1)) = 2 :=
    byteAt_of_layout
      (show mem = (pre ++ [7]) ++ (2 :: post) by simp [hmem, sbytes])
      (by simp only [List.length_append, List.length_cons, List.length_nil]
          omega)
      (by omega)
  have hm0 : markRead st mem (base + cur) 1 = st :=
    markRead_of_le (by omega)
  have hm1 : markRead st mem (base + (cur + 1)) 1 = st :=
    markRead_of_le (by omega)
  show unpStepVal c mem (unpGo c mem fuel) base len st cur idx = _
  unfold unpStepVal unpUsr
  simp [hb0, hb1, hm0, hm1, MAR_CHR, MAR_TREF, MAR_TUSR,
    LUA_TBOOLEAN, LUA_TNUMBER, LUA_TSTRING, LUA_TTABLE, LUA_TFUNCTION,
    LUA_TUSERDATA,
    show ¬(cur + 1 > len) by omega, show ¬(cur + 1 + 1 > len) by omega]

theorem slen_eq_length {v : LuaValue} (hwf : vPure v) :
    (sbytes v).length = slen v := by
  cases v <;> simp [vPure] at hwf <;>
    simp [sbytes, slen, toLE_length]
  · exact hwf.1
  · omega

/-- Decoding a self-contained value laid out at the cursor yields its
`vdecode`, leaves the instrumented state untouched, and advances the
cursor by its encoded length. -/
theorem unpGo_vval (c : CallOracle) (mem : List Nat)
    (fuel base len cur idx : Nat) (st : UnpSt) (v : LuaValue)
    (pre post : List Nat) (hwf : vPure v)
    (hmem : mem = pre ++ (sbytes v ++ post))
    (hpos : base + cur = pre.length)
    (hwin : cur + slen v ≤ len) (hlen : base + len ≤ mem.length) :
    (unpGo c mem (fuel + 1)).1 base len st cur idx
      = (st, .ok (vdecode v, cur + slen v, idx)) := by
  cases v with
  | boolean b =>
    simpa [slen, vdecode] using
      unpGo_scalar_bool c mem fuel base len cur idx st b pre post hmem hpos
        (by simp [slen] at hwin; omega) hlen
  | number nb =>
    obtain ⟨h1, h2⟩ := hwf
    simpa [slen, vdecode] using
      unpGo_scalar_num c mem fuel base len cur idx st nb pre post h1 h2
        hmem hpos (by simp [slen] at hwin; omega) hlen
  | str s =>
    obtain ⟨h1, h2⟩ := hwf
    simpa [slen, vdecode, Nat.add_assoc] using
      unpGo_scalar_str c mem fuel base len cur idx st s pre post h1 h2
        hmem hpos (by simp [slen] at hwin; omega) hlen
  | thread a =>
    simpa [slen, vdecode] using
      unpGo_scalar_thr c mem fuel base len cur idx a st pre post hmem hpos
        (by simp [slen] at hwin; omega) hlen
  | usr a =>
    simpa [slen, vdecode] using
      unpGo_scalar_usr c mem fuel base len cur idx a st pre post hmem hpos
        (by simp [slen] at hwin; omega) hlen
  | nil => exact absurd hwf (by simp [vPure])
  | tbl a => exact absurd hwf (by simp [vPure])
  | func a => exact absurd hwf (by simp [vPure])

/-- Decoding a scalar laid out at the cursor yields the scalar itself. -/
theorem unpGo_kval (c : CallOracle) (mem : List Nat)
    (fuel base len cur idx : Nat) (st : UnpSt) (k : LuaValue)
    (pre post : List Nat) (hwf : scalarWF k)
    (hmem : mem = pre ++ (sbytes k ++ post))
    (hpos : base + cur = pre.length)
    (hwin : cur + slen k ≤ len) (hlen : base + len ≤ mem.length) :
    (unpGo c mem (fuel + 1)).1 base len st cur idx
      = (st, .ok (k, cur + slen k, idx)) := by
  have hp : vPure k := by
    cases k <;> simp [scalarWF] at hwf <;> simp [vPure] <;> tauto
  have h := unpGo_vval c mem fuel base len cur idx st k pre post hp hmem
    hpos hwin hlen
  rw [h]
  cases k <;> simp [vdecode] <;> simp [scalarWF] at hwf

/-! Heap update lemmas -/

theorem hget_hset_self (h : Heap) (a : Nat) (o : LuaObject)
    (ha : a < h.length) : hget (hset h a o) a = some o := by
  induction h generalizing a with
  | nil => simp at ha
  | cons x rest ih =>
    cases a with
    | zero => rfl
    | succ a =>
      simp only [hset, List.set_cons_succ, hget, List.get?_cons_succ]
      exact ih a (by simpa using ha)

theorem hset_length (h : Heap) (a : Nat) (o : LuaObject) :
    (hset h a o).length = h.length := by
  simp [hset]

theorem hset_same (h : Heap) (a : Nat) (o : LuaObject)
    (hh : hget h a = some o) : hset h a o = h := by
  induction h generalizing a with
  | nil => simp [hget] at hh
  | cons x rest ih =>
    cases a with
    | zero =>
      simp only [hget, List.get?_cons_zero, Option.some.injEq] at hh
      simp [hset, hh]
    | succ a =>
      simp only [hget, List.get?_cons_succ] at hh
      simp only [hset, List.set_cons_succ]
      rw [show List.set rest a o = rest from ih a hh]

theorem vWF_vPure {h : Heap} {v : LuaValue} (hv : vWF h v) : vPure v := by
  cases v <;> simp [vWF] at hv <;> simp [vPure] <;> tauto

theorem scalarWF_vWF {h : Heap} {v : LuaValue} (hv : scalarWF v) : vWF h v := by
  cases v <;> simp [scalarWF] at hv <;> simp [vWF] <;> tauto

theorem pairsWF_pure {h : Heap} {ps : List (LuaValue × LuaValue)}
    (hp : pairsWF h ps) : pairsPure ps := by
  induction ps with
  | nil => trivial
  | cons p rest ih =>
    obtain ⟨k, v⟩ := p
    exact ⟨hp.1, vWF_vPure hp.2.1, ih hp.2.2⟩

theorem spairsWF_WF {h : Heap} {ps : List (LuaValue × LuaValue)}
    (hp : spairsWF ps) : pairsWF h ps := by
  induction ps with
  | nil => trivial
  | cons p rest ih =>
    obtain ⟨k, v⟩ := p
    exact ⟨hp.1, scalarWF_vWF hp.2.1, ih hp.2.2⟩

theorem storePairs_eq (ps : List (LuaValue × LuaValue)) :
    ∀ (addr : Nat) (st : UnpSt) (q : List (LuaValue × LuaValue))
      (pf : Option LuaValue),
    hget st.heap addr = some (.otbl ⟨q, pf⟩) →
    storePairs addr st ps
      = { st with heap := hset st.heap addr (.otbl ⟨tsetFold ps q, pf⟩) } := by
  induction ps with
  | nil =>
    intro addr st q pf hq
    show st = _
    rw [show tsetFold [] q = q from rfl, hset_same st.heap addr _ hq]
  | cons p rest ih =>
    intro addr st q pf hq
    obtain ⟨k, v⟩ := p
    have hlt : addr < st.heap.length := by
      by_contra hc
      rw [show hget st.heap addr = none from
        List.get?_eq_none.mpr (by omega)] at hq
      exact absurd hq (by simp)
    simp only [storePairs, hq]
    rw [ih addr _ (tset q k (vdecode v)) pf
      (by simpa using hget_hset_self st.heap addr _ hlt)]
    simp only [hset]
    rw [List.set_set]
    rfl

theorem settableOp_scalar (st : UnpSt) (addr : Nat) (k v : LuaValue)
    (t : LuaTable) (hk : scalarWF k)
    (ht : hget st.heap addr = some (.otbl t)) :
    settableOp st addr k v
      = ({ st with
           heap := hset st.heap addr (.otbl { t with pairs := tset t.pairs k v }) },
         .ok ()) := by
  cases k with
  | boolean b => simp [settableOp, ht]
  | number nb =>
    simp only [scalarWF] at hk
    simp [settableOp, ht, hk.2.2]
  | str s => simp [settableOp, ht]
  | nil => exact absurd hk (by simp [scalarWF])
  | tbl a => exact absurd hk (by simp [scalarWF])
  | func a => exact absurd hk (by simp [scalarWF])
  | usr a => exact absurd hk (by simp [scalarWF])
  | thread a => exact absurd hk (by simp [scalarWF])

theorem slen_pos {v : LuaValue} (h : vPure v) : 1 ≤ slen v := by
  cases v <;> simp [vPure] at h <;> simp [slen] <;> omega

theorem pairsBytes_length {ps : List (LuaValue × LuaValue)}
    (hp : pairsPure ps) :
    (pairsBytes ps).length
      = (ps.map (fun kv => slen kv.1 + slen kv.2)).sum := by
  induction ps with
  | nil => rfl
  | cons p rest ih =>
    obtain ⟨k, v⟩ := p
    obtain ⟨h1, h2, h3⟩ := hp
    have hk : vPure k := by
      cases k <;> simp [scalarWF] at h1 <;> simp [vPure] <;> tauto
    simp only [pairsBytes, List.length_append, List.map_cons, List.sum_cons,
      slen_eq_length hk, slen_eq_length h2, ih h3]
    omega

/-- Decoding the exact window holding the encoding of a pair list of
self-contained values settables each decoded pair into the table at
`addr`, in order, and succeeds; the cursor never escapes the window. -/
theorem unpGo_pairs (c : CallOracle) (mem : List Nat)
    (ps : List (LuaValue × LuaValue)) :
    ∀ (fuel base len cur idx addr : Nat) (st : UnpSt)
      (pre post : List Nat),
    pairsPure ps →
    mem = pre ++ (pairsBytes ps ++ post) →
    base + cur = pre.length →
    len = cur + (pairsBytes ps).length →
    base + len ≤ mem.length →
    (∃ t, hget st.heap addr = some (.otbl t)) →
    ps.length + 1 ≤ fuel →
    (unpGo c mem fuel).2 base len st cur idx addr
      = (storePairs addr st ps, .ok ()) := by
  induction ps with
  | nil =>
    intro fuel base len cur idx addr st pre post hp hmem hpos hlen hml ht hf
    obtain ⟨m, rfl⟩ : ∃ m, fuel = m + 1 := ⟨fuel - 1, by omega⟩
    show unpStepRec c mem (unpGo c mem m) base len st cur idx addr = _
    unfold unpStepRec
    rw [if_neg (by simp [pairsBytes] at hlen; omega)]
    rfl
  | cons p rest ih =>
    intro fuel base len cur idx addr st pre post hp hmem hpos hlen hml ht hf
    obtain ⟨k, v⟩ := p
    obtain ⟨hk, hv, hrest⟩ := hp
    obtain ⟨t, htbl⟩ := ht
    obtain ⟨m, rfl⟩ : ∃ m, fuel = m + 1 := ⟨fuel - 1, by omega⟩
    obtain ⟨m2, rfl⟩ : ∃ m2, m = m2 + 1 := ⟨m - 1, by simp at hf; omega⟩
    have hkp : vPure k := by
      cases k <;> simp [scalarWF] at hk <;> simp [vPure] <;> tauto
    have hblen : (pairsBytes ((k, v) :: rest)).length
        = slen k + slen v + (pairsBytes rest).length := by
      simp [pairsBytes, slen_eq_length hkp, slen_eq_length hv]
      omega
    have hkey : (unpGo c mem (m2 + 1)).1 base len st cur idx
        = (st, .ok (k, cur + slen k, idx)) :=
      unpGo_kval c mem m2 base len cur idx st k pre
        (sbytes v ++ pairsBytes rest ++ post) hk
        (by simp [hmem, pairsBytes]) hpos (by omega) hml
    have hval : (unpGo c mem (m2 + 1)).1 base len st (cur + slen k) idx
        = (st, .ok (vdecode v, cur + slen k + slen v, idx)) := by
      have h := unpGo_vval c mem m2 base len (cur + slen k) idx st v
        (pre ++ sbytes k) (pairsBytes rest ++ post) hv
        (by simp [hmem, pairsBytes])
        (by simp [← hpos, slen_eq_length hkp]; omega)
        (by omega) hml
      rw [h]
    have hstep := settableOp_scalar st addr k (vdecode v) t hk htbl
    have hlt : addr < st.heap.length := by
      by_contra hc
      rw [show hget st.heap addr = none from
        List.get?_eq_none.mpr (by omega)] at htbl
      exact absurd htbl (by simp)
    have hrec := ih (m2 + 1) base len (cur + slen k + slen v) idx addr
      ({ st with
         heap := hset st.heap addr (.otbl { t with pairs := tset t.pairs k (vdecode v) }) })
      (pre ++ sbytes k ++ sbytes v) post hrest
      (by simp [hmem, pairsBytes])
      (by simp [← hpos, slen_eq_length hkp, slen_eq_length hv]; omega)
      (by omega) hml
      (⟨{ t with pairs := tset t.pairs k (vdecode v) }, by
        simpa using hget_hset_self st.heap addr _ hlt⟩)
      (by simp at hf ⊢; omega)
    show unpStepRec c mem (unpGo c mem (m2 + 1)) base len st cur idx addr = _
    unfold unpStepRec
    rw [if_pos (by have := slen_pos hkp; omega)]
    rw [hkey]
    simp only []
    rw [hval]
    simp only []
    rw [hstep]
    simp only []
    rw [hrec]
    simp only [storePairs, htbl]

/-! Pack-side lemmas for self-contained values -/

/-- Packing a self-contained value (on the little-endian host) leaves the
state and counter untouched and emits exactly `sbytes`; for userdata the
hook-less branch requires an empty reference table (no prior
registration of that address). -/
theorem packGo_vval (c : CallOracle) (fuel : Nat) (st : PackSt) (idx : Nat)
    (v : LuaValue) (hwf : vWF st.heap v) (hrefs : st.refs = []) :
    (packGo c true (fuel + 1)).1 st idx v = .ok (st, idx, sbytes v) := by
  show packStepVal c true (packGo c true fuel) st idx v = _
  cases v with
  | boolean b =>
    cases b <;> simp [packStepVal, cObjBytes, lua_type, sbytes, toLE,
      MAR_CHR]
  | number nb =>
    simp [packStepVal, cObjBytes, lua_type, sbytes, toLE, MAR_CHR]
  | str s =>
    obtain ⟨h1, h2⟩ := hwf
    simp only [packStepVal]
    rw [if_neg (by omega)]
    simp [cObjBytes, lua_type, sbytes, toLE, MAR_CHR, MAR_I32]
  | thread a =>
    simp [packStepVal, cObjBytes, lua_type, sbytes, toLE, MAR_CHR]
  | usr a =>
    simp only [vWF] at hwf
    simp [packStepVal, hrefs, refGet, hwf, cObjBytes, lua_type, sbytes,
      toLE, MAR_CHR, MAR_TVAL]
  | nil => exact absurd hwf (by simp [vWF])
  | tbl a => exact absurd hwf (by simp [vWF])
  | func a => exact absurd hwf (by simp [vWF])

/-- Packing a scalar leaves the state and counter untouched and emits
exactly `sbytes`, whatever the reference table holds. -/
theorem packGo_sval (c : CallOracle) (fuel : Nat) (st : PackSt) (idx : Nat)
    (v : LuaValue) (hwf : scalarWF v) :
    (packGo c true (fuel + 1)).1 st idx v = .ok (st, idx, sbytes v) := by
  show packStepVal c true (packGo c true fuel) st idx v = _
  cases v with
  | boolean b =>
    cases b <;> simp [packStepVal, cObjBytes, lua_type, sbytes, toLE,
      MAR_CHR]
  | number nb =>
    simp [packStepVal, cObjBytes, lua_type, sbytes, toLE, MAR_CHR]
  | str s =>
    obtain ⟨h1, h2⟩ := hwf
    simp only [packStepVal]
    rw [if_neg (by omega)]
    simp [cObjBytes, lua_type, sbytes, toLE, MAR_CHR, MAR_I32]
  | nil => exact absurd hwf (by simp [scalarWF])
  | tbl a => exact absurd hwf (by simp [scalarWF])
  | func a => exact absurd hwf (by simp [scalarWF])
  | usr a => exact absurd hwf (by simp [scalarWF])
  | thread a => exact absurd hwf (by simp [scalarWF])

/-- Packing a pair list of self-contained values emits the concatenated
encodings and returns the state unchanged (an empty reference table stays
empty throughout). -/
theorem packGo_vpairs (c : CallOracle) (ps : List (LuaValue × LuaValue)) :
    ∀ (fuel : Nat) (st : PackSt) (idx : Nat),
    pairsWF st.heap ps → st.refs = [] → ps.length + 1 ≤ fuel →
    (packGo c true fuel).2 st idx ps = .ok (st, pairsBytes ps) := by
  induction ps with
  | nil =>
    intro fuel st idx hp hrefs hf
    obtain ⟨m, rfl⟩ : ∃ m, fuel = m + 1 := ⟨fuel - 1, by omega⟩
    rfl
  | cons p rest ih =>
    intro fuel st idx hp hrefs hf
    obtain ⟨k, v⟩ := p
    obtain ⟨hk, hv, hrest⟩ := hp
    obtain ⟨m, rfl⟩ : ∃ m, fuel = m + 1 := ⟨fuel - 1, by omega⟩
    obtain ⟨m2, rfl⟩ : ∃ m2, m = m2 + 1 := ⟨m - 1, by simp at hf; omega⟩
    show packStepRec c true (packGo c true (m2 + 1)) st idx ((k, v) :: rest)
      = _
    simp only [packStepRec]
    rw [packGo_sval c m2 st idx k hk]
    simp only []
    rw [packGo_vval c m2 st idx v hv hrefs]
    simp only []
    rw [ih (m2 + 1) st idx hrest hrefs (by simp at hf ⊢; omega)]
    simp [pairsBytes]

/-- Packing an all-scalar pair list emits the concatenated encodings and
returns the state unchanged, whatever the reference table holds. -/
theorem packGo_spairs (c : CallOracle) (ps : List (LuaValue × LuaValue)) :
    ∀ (fuel : Nat) (st : PackSt) (idx : Nat),
    spairsWF ps → ps.length + 1 ≤ fuel →
    (packGo c true fuel).2 st idx ps = .ok (st, pairsBytes ps) := by
  induction ps with
  | nil =>
    intro fuel st idx hp hf
    obtain ⟨m, rfl⟩ : ∃ m, fuel = m + 1 := ⟨fuel - 1, by omega⟩
    rfl
  | cons p rest ih =>
    intro fuel st idx hp hf
    obtain ⟨k, v⟩ := p
    obtain ⟨hk, hv, hrest⟩ := hp
    obtain ⟨m, rfl⟩ : ∃ m, fuel = m + 1 := ⟨fuel - 1, by omega⟩
    obtain ⟨m2, rfl⟩ : ∃ m2, m = m2 + 1 := ⟨m - 1, by simp at hf; omega⟩
    show packStepRec c true (packGo c true (m2 + 1)) st idx ((k, v) :: rest)
      = _
    simp only [packStepRec]
    rw [packGo_sval c m2 st idx k hk]
    simp only []
    rw [packGo_sval c m2 st idx v hv]
    simp only []
    rw [ih (m2 + 1) st idx hrest (by simp at hf ⊢; omega)]
    simp [pairsBytes]

/-! End-to-end composition for roots of self-contained pairs -/

theorem tbl_marshal_pairs (c : CallOracle) (fuel : Nat) (h : Heap)
    (r : Nat) (t : LuaTable) (hr : hget h r = some (.otbl t))
    (hwf : pairsWF h t.pairs) (hf : t.pairs.length + 1 ≤ fuel) :
    tbl_marshal c true fuel h (.tbl r)
      = .ok (MAR_MAGIC :: 1 :: pairsBytes t.pairs) := by
  simp only [tbl_marshal, hr, mar_pack]
  rw [packGo_vpairs c t.pairs fuel ⟨h, []⟩ 1 hwf rfl hf]
  simp [cObjBytes, toLE, MAR_CHR]

theorem tbl_unmarshal_pairs (c : CallOracle) (fuel : Nat)
    (ps : List (LuaValue × LuaValue)) (hwf : pairsPure ps)
    (hf : ps.length + 1 ≤ fuel) :
    tbl_unmarshal c fuel (MAR_MAGIC :: 1 :: pairsBytes ps)
      = (storePairs 0 ⟨[.otbl ⟨[], none⟩], [], [], false⟩ ps,
         .ok (.tbl 0)) := by
  have hdec : mar_unpack c (pairsBytes ps) 0 (pairsBytes ps).length fuel
      ⟨[.otbl ⟨[], none⟩], [], [], false⟩ 0 1 0
      = (storePairs 0 ⟨[.otbl ⟨[], none⟩], [], [], false⟩ ps, .ok ()) := by
    show (unpGo c (pairsBytes ps) fuel).2 0 (pairsBytes ps).length _ 0 1 0 = _
    exact unpGo_pairs c (pairsBytes ps) ps fuel 0 (pairsBytes ps).length 0 1 0
      _ [] [] hwf (by simp) rfl (by omega) (by simp) ⟨⟨[], none⟩, rfl⟩ hf
  simp only [tbl_unmarshal]
  rw [if_neg (by simp)]
  rw [if_neg (by simp [byteAt, MAR_MAGIC])]
  simp only [byteAt, List.getD, List.get?_cons_succ, List.get?_cons_zero]
  rw [if_neg (by simp)]
  simp only [List.drop_succ_cons, List.drop_zero]
  rw [hdec]

theorem tbl_clone_pairs (c : CallOracle) (fuel : Nat) (h : Heap)
    (r : Nat) (t : LuaTable) (hr : hget h r = some (.otbl t))
    (hwf : pairsWF h t.pairs) (hf : t.pairs.length + 1 ≤ fuel) :
    tbl_clone c fuel h (.tbl r)
      = (storePairs 0 ⟨[.otbl ⟨[], none⟩], [], [], false⟩ t.pairs,
         .ok (.tbl 0)) := by
  simp only [tbl_clone, tbl_marshal_pairs c fuel h r t hr hwf hf]
  exact tbl_unmarshal_pairs c fuel t.pairs (pairsWF_pure hwf) hf

/-! Key absence in the stored fold -/

theorem tget_tset_ne (a : List (LuaValue × LuaValue)) (k1 k v : LuaValue)
    (hne : k1 ≠ k) : tget (tset a k1 v) k = tget a k := by
  induction a with
  | nil =>
    by_cases hv : v = .nil <;> simp [tset, tget, hv, hne]
  | cons p rest ih =>
    obtain ⟨k2, v2⟩ := p
    by_cases h2 : k2 = k1
    · subst h2
      by_cases hv : v = .nil <;>
        simp [tset, tget, hv, hne, Ne.symm hne, ih]
    · simp [tset, tget, h2, ih]

theorem tset_nil_of_absent (a : List (LuaValue × LuaValue)) (k : LuaValue)
    (h : tget a k = none) : tset a k .nil = a := by
  induction a with
  | nil => simp [tset]
  | cons p rest ih =>
    obtain ⟨k2, v2⟩ := p
    by_cases h2 : k2 = k
    · subst h2; simp [tget] at h
    · simp [tget, h2] at h
      simp [tset, h2, ih h]

theorem tget_tsetFold_absent (ps : List (LuaValue × LuaValue)) :
    ∀ (acc : List (LuaValue × LuaValue)) (k : LuaValue),
    k ∉ ps.map Prod.fst → tget acc k = none →
    tget (tsetFold ps acc) k = none := by
  induction ps with
  | nil => intro acc k _ h; exact h
  | cons p rest ih =>
    intro acc k hk h
    obtain ⟨k1, v1⟩ := p
    simp only [List.map_cons, List.mem_cons] at hk
    push_neg at hk
    show tget (tsetFold rest (tset acc k1 (vdecode v1))) k = none
    exact ih _ k hk.2
      (by rw [tget_tset_ne acc k1 k _ (Ne.symm hk.1)]; exact h)

theorem tsetFold_append (xs ys : List (LuaValue × LuaValue))
    (acc : List (LuaValue × LuaValue)) :
    tsetFold (xs ++ ys) acc = tsetFold ys (tsetFold xs acc) :=
  List.foldl_append _ _ _ _

/-- Amended C8, universal form: in any root Record of scalar keys and
self-contained values, a coroutine-like value or a hook-less userdata
value at any position marshals without error, and the clone succeeds with
the pair at that key absent (reading it yields nil). -/
theorem c8_family (c : CallOracle) (fuel : Nat) (h : Heap) (r : Nat)
    (t : LuaTable) (ps qs : List (LuaValue × LuaValue)) (k v : LuaValue)
    (hr : hget h r = some (.otbl t))
    (hsplit : t.pairs = ps ++ (k, v) :: qs)
    (hwf : pairsWF h t.pairs)
    (hv : (∃ a, v = .thread a) ∨ (∃ a, v = .usr a))
    (hk : k ∉ (ps ++ qs).map Prod.fst)
    (hf : t.pairs.length + 1 ≤ fuel) :
    exOk (tbl_marshal c true fuel h (.tbl r)) = true ∧
    ∃ st, tbl_clone c fuel h (.tbl r) = (st, .ok (.tbl 0)) ∧
      st.oob = false ∧
      ∃ tr, hget st.heap 0 = some (.otbl tr) ∧ tget tr.pairs k = none := by
  have hvd : vdecode v = .nil := by
    rcases hv with ⟨a, rfl⟩ | ⟨a, rfl⟩ <;> rfl
  have hmar := tbl_marshal_pairs c fuel h r t hr hwf hf
  have hclone := tbl_clone_pairs c fuel h r t hr hwf hf
  have hsp : storePairs 0 (⟨[.otbl ⟨[], none⟩], [], [], false⟩ : UnpSt)
      t.pairs
      = ⟨[.otbl ⟨tsetFold t.pairs [], none⟩], [], [], false⟩ := by
    rw [storePairs_eq t.pairs 0
      (⟨[.otbl ⟨[], none⟩], [], [], false⟩ : UnpSt) [] none rfl]
    rfl
  refine ⟨by rw [hmar]; rfl,
    ⟨[.otbl ⟨tsetFold t.pairs [], none⟩], [], [], false⟩,
    by rw [hclone, hsp], rfl, ⟨tsetFold t.pairs [], none⟩, rfl, ?_⟩
  simp only [List.map_append, List.mem_append] at hk
  push_neg at hk
  rw [hsplit, tsetFold_append]
  show tget (tsetFold ((k, v) :: qs) (tsetFold ps [])) k = none
  have hps : tget (tsetFold ps []) k = none :=
    tget_tsetFold_absent ps [] k hk.1 rfl
  show tget (tsetFold qs (tset (tsetFold ps []) k (vdecode v))) k = none
  rw [hvd, tset_nil_of_absent _ k hps]
  exact tget_tsetFold_absent qs _ k hk.2 hps

theorem hget_append (h : Heap) (o : LuaObject) :
    hget (h ++ [o]) h.length = some o := by
  simp only [hget]
  rw [List.get?_append_right (le_refl _)]
  simp

/-- Decoding a table back-reference (tag LUA_TTABLE, sub-tag MAR_TREF,
4-byte id) resolves via `lua_rawgeti` on the reference table, yielding nil
for an unknown id, and leaves the state untouched. -/
theorem unpGo_tref (c : CallOracle) (mem : List Nat)
    (fuel base len cur idx : Nat) (st : UnpSt) (rid : Nat)
    (pre post : List Nat) (hrid : rid < 2 ^ 31)
    (hmem : mem = pre ++ ((5 :: 1 :: toLE 4 rid) ++ post))
    (hpos : base + cur = pre.length)
    (hwin : cur + 6 ≤ len) (hlen : base + len ≤ mem.length) :
    (unpGo c mem (fuel + 1)).1 base len st cur idx
      = (st, .ok ((refUGet st.refs (Int.ofNat rid)).getD .nil,
          cur + 6, idx)) := by
  have hb0 : byteAt mem (base + cur) = 5 :=
    byteAt_of_layout (by simpa using hmem) hpos (by omega)
  have hb1 : byteAt mem (base + (cur + 1)) = 1 :=
    byteAt_of_layout
      (show mem = (pre ++ [5]) ++ (1 :: (toLE 4 rid ++ post)) by
        simp [hmem])
      (by simp only [List.length_append, List.length_cons, List.length_nil]
          omega)
      (by omega)
  have hr4 : readBytes mem (base + (cur + 1 + 1)) 4 = toLE 4 rid :=
    readBytes_of_layout
      (show mem = (pre ++ [5, 1]) ++ (toLE 4 rid ++ post) by simp [hmem])
      (by simp only [List.length_append, List.length_cons, List.length_nil]
          omega)
      (toLE_length 4 _).symm (toLE_lt 4 _)
  have hfl : fromLE (toLE 4 rid) = rid := by
    rw [fromLE_toLE]
    exact Nat.mod_eq_of_lt (by norm_num; omega)
  have hai : asInt32 rid = Int.ofNat rid := by
    simp only [asInt32]
    rw [if_pos hrid]
    rfl
  have hm0 : markRead st mem (base + cur) 1 = st :=
    markRead_of_le (by omega)
  have hm1 : markRead st mem (base + (cur + 1)) 1 = st :=
    markRead_of_le (by omega)
  have hm2 : markRead st mem (base + (cur + 1 + 1)) 4 = st :=
    markRead_of_le (by omega)
  show unpStepVal c mem (unpGo c mem fuel) base len st cur idx = _
  unfold unpStepVal unpTbl unpRef
  simp [hb0, hb1, hr4, hfl, hai, hm0, hm1, hm2, MAR_CHR, MAR_I32,
    MAR_TREF, LUA_TBOOLEAN, LUA_TNUMBER, LUA_TSTRING, LUA_TTABLE,
    show ¬(cur + 1 > len) by omega, show ¬(cur + 1 + 1 > len) by omega,
    show ¬(cur + 1 + 1 + 4 > len) by omega]

/-- Decoding a first-sighted table record (tag LUA_TTABLE, sub-tag
MAR_TVAL, 4-byte length, nested window of self-contained pairs): an empty
container is appended to the heap and registered at the CALLER's counter
value BEFORE the contents are decoded into it; the result is the fresh
address and the incremented counter. -/
theorem unpGo_tval (c : CallOracle) (mem : List Nat)
    (fuel base len cur idx : Nat) (st : UnpSt)
    (ips : List (LuaValue × LuaValue)) (pre post : List Nat)
    (hwf : pairsPure ips)
    (hL : (pairsBytes ips).length < 2 ^ 32)
    (hmem : mem = pre ++
      ((5 :: 2 :: (toLE 4 (pairsBytes ips).length ++ pairsBytes ips)) ++ post))
    (hpos : base + cur = pre.length)
    (hwin : cur + 6 + (pairsBytes ips).length ≤ len)
    (hlen : base + len ≤ mem.length)
    (hfuel : ips.length + 1 ≤ fuel) :
    (unpGo c mem (fuel + 1)).1 base len st cur idx
      = (storePairs st.heap.length
           (regPut { st with heap := st.heap ++ [.otbl ⟨[], none⟩] } idx
             (.tbl st.heap.length)) ips,
         .ok (.tbl st.heap.length, cur + 6 + (pairsBytes ips).length,
           idx + 1)) := by
  have hb0 : byteAt mem (base + cur) = 5 :=
    byteAt_of_layout (by simpa using hmem) hpos (by omega)
  have hb1 : byteAt mem (base + (cur + 1)) = 2 :=
    byteAt_of_layout
      (show mem = (pre ++ [5]) ++
          (2 :: (toLE 4 (pairsBytes ips).length ++ (pairsBytes ips ++ post))) by
        simp [hmem])
      (by simp only [List.length_append, List.length_cons, List.length_nil]
          omega)
      (by omega)
  have hr4 : readBytes mem (base + (cur + 1 + 1)) 4
      = toLE 4 (pairsBytes ips).length :=
    readBytes_of_layout
      (show mem = (pre ++ [5, 2]) ++
          (toLE 4 (pairsBytes ips).length ++ (pairsBytes ips ++ post)) by
        simp [hmem])
      (by simp only [List.length_append, List.length_cons, List.length_nil]
          omega)
      (toLE_length 4 _).symm (toLE_lt 4 _)
  have hfl : fromLE (toLE 4 (pairsBytes ips).length)
      = (pairsBytes ips).length := by
    rw [fromLE_toLE]
    exact Nat.mod_eq_of_lt (by norm_num; omega)
  have hm0 : markRead st mem (base + cur) 1 = st :=
    markRead_of_le (by omega)
  have hm1 : markRead st mem (base + (cur + 1)) 1 = st :=
    markRead_of_le (by omega)
  have hm2 : markRead st mem (base + (cur + 1 + 1)) 4 = st :=
    markRead_of_le (by omega)
  have hnest : (unpGo c mem fuel).2 (base + (cur + 1 + 1 + 4))
      (pairsBytes ips).length
      (regPut { st with heap := st.heap ++ [.otbl ⟨[], none⟩] } idx
        (.tbl st.heap.length))
      0 (idx + 1) st.heap.length
      = (storePairs st.heap.length
          (regPut { st with heap := st.heap ++ [.otbl ⟨[], none⟩] } idx
            (.tbl st.heap.length)) ips, .ok ()) := by
    apply unpGo_pairs c mem ips fuel (base + (cur + 1 + 1 + 4))
      (pairsBytes ips).length 0 (idx + 1) st.heap.length _
      (pre ++ [5, 2] ++ toLE 4 (pairsBytes ips).length) post hwf
    · simp [hmem]
    · simp only [List.length_append, List.length_cons, List.length_nil,
        toLE_length]
      omega
    · omega
    · omega
    · exact ⟨⟨[], none⟩,
        (by simpa [regPut] using hget_append st.heap (.otbl ⟨[], none⟩))⟩
    · exact hfuel
  show unpStepVal c mem (unpGo c mem fuel) base len st cur idx = _
  unfold unpStepVal unpTbl unpVal
  simp [hb0, hb1, hr4, hfl, hm0, hm1, hm2, hnest, MAR_CHR, MAR_I32,
    MAR_TREF, MAR_TVAL, LUA_TBOOLEAN, LUA_TNUMBER, LUA_TSTRING, LUA_TTABLE,
    show ¬(cur + 1 > len) by omega, show ¬(cur + 1 + 1 > len) by omega,
    show ¬(cur + 1 + 1 + 4 > len) by omega,
    show ¬(cur + 1 + 1 + 4 + (pairsBytes ips).length > len) by omega]

/-- Packing a root whose two pairs both point at the same inner table of
all-scalar pairs: the first sighting emits a MAR_TVAL record and registers
id 1; the second emits a MAR_TREF back-reference to id 1. -/
theorem pack_two_shared (c : CallOracle) (fuel : Nat) (h : Heap)
    (r ia : Nat) (t : LuaTable) (kp kq : LuaValue)
    (ips : List (LuaValue × LuaValue))
    (hr : hget h r = some (.otbl t))
    (htp : t.pairs = [(kp, .tbl ia), (kq, .tbl ia)])
    (hi : hget h ia = some (.otbl ⟨ips, none⟩))
    (hkp : scalarWF kp) (hkq : scalarWF kq) (hips : spairsWF ips)
    (hL : (pairsBytes ips).length < 2 ^ 32)
    (hf : ips.length + 4 ≤ fuel) :
    tbl_marshal c true fuel h (.tbl r)
      = .ok (MAR_MAGIC :: 1 ::
          (sbytes kp ++
            ((5 :: 2 :: (toLE 4 (pairsBytes ips).length ++ pairsBytes ips)) ++
             (sbytes kq ++ (5 :: 1 :: toLE 4 1))))) := by
  obtain ⟨m3, rfl⟩ : ∃ m3, fuel = m3 + 3 := ⟨fuel - 3, by omega⟩
  have h32 : (2 : Nat) ^ 32 = 4294967296 := by norm_num
  have hv1 : (packGo c true (m3 + 2)).1 ⟨h, []⟩ 1 (.tbl ia)
      = .ok (⟨h, [(ia, 1)]⟩, 2,
          5 :: 2 :: (toLE 4 (pairsBytes ips).length ++ pairsBytes ips)) := by
    show packStepVal c true (packGo c true (m3 + 1)) ⟨h, []⟩ 1 (.tbl ia) = _
    simp only [packStepVal, refGet, hi]
    rw [packGo_spairs c ips (m3 + 1) ⟨h, refPut [] ia 1⟩ 2 hips
      (by simp at hf ⊢; omega)]
    simp only []
    rw [if_neg (by omega)]
    have hLmod : (pairsBytes ips).length % 4294967296
        = (pairsBytes ips).length := Nat.mod_eq_of_lt (by omega)
    simp [cObjBytes, toLE, lua_type, MAR_CHR, MAR_I32, MAR_TVAL, refPut,
      hLmod]
  have hv2 : (packGo c true (m3 + 1)).1 ⟨h, [(ia, 1)]⟩ 2 (.tbl ia)
      = .ok (⟨h, [(ia, 1)]⟩, 2, 5 :: 1 :: toLE 4 1) := by
    show packStepVal c true (packGo c true m3) ⟨h, [(ia, 1)]⟩ 2 (.tbl ia) = _
    simp [packStepVal, refGet, cObjBytes, toLE, lua_type, MAR_CHR,
      MAR_I32, MAR_TREF]
  have hrest2 : (packGo c true (m3 + 2)).2 ⟨h, [(ia, 1)]⟩ 2 [(kq, .tbl ia)]
      = .ok (⟨h, [(ia, 1)]⟩, sbytes kq ++ (5 :: 1 :: toLE 4 1)) := by
    show packStepRec c true (packGo c true (m3 + 1)) ⟨h, [(ia, 1)]⟩ 2
      [(kq, .tbl ia)] = _
    simp only [packStepRec]
    rw [packGo_sval c m3 ⟨h, [(ia, 1)]⟩ 2 kq hkq]
    simp only []
    rw [hv2]
    simp only []
    rw [show (packGo c true (m3 + 1)).2 ⟨h, [(ia, 1)]⟩ 2 [] =
      .ok (⟨h, [(ia, 1)]⟩, []) from rfl]
    simp
  have hrec : (packGo c true (m3 + 3)).2 ⟨h, []⟩ 1
      [(kp, .tbl ia), (kq, .tbl ia)]
      = .ok (⟨h, [(ia, 1)]⟩,
          sbytes kp ++
            ((5 :: 2 :: (toLE 4 (pairsBytes ips).length ++ pairsBytes ips)) ++
             (sbytes kq ++ (5 :: 1 :: toLE 4 1)))) := by
    show packStepRec c true (packGo c true (m3 + 2)) ⟨h, []⟩ 1
      [(kp, .tbl ia), (kq, .tbl ia)] = _
    simp only [packStepRec]
    rw [packGo_sval c (m3 + 1) ⟨h, []⟩ 1 kp hkp]
    simp only []
    rw [hv1]
    simp only []
    rw [hrest2]
    simp
  simp only [tbl_marshal, hr, htp, mar_pack]
  rw [hrec]
  simp [cObjBytes, toLE, MAR_CHR]

/-- Header handling of `tbl_unmarshal` on a little-endian stream. -/
theorem tbl_unmarshal_le (c : CallOracle) (fuel : Nat) (body : List Nat) :
    tbl_unmarshal c fuel (MAR_MAGIC :: 1 :: body)
      = (match mar_unpack c body 0 body.length fuel
            ⟨[.otbl ⟨[], none⟩], [], [], false⟩ 0 1 0 with
         | (st, .error e) => (st, .error e)
         | (st, .ok _) => (st, .ok (.tbl 0))) := by
  simp only [tbl_unmarshal]
  rw [if_neg (by simp)]
  rw [if_neg (by simp [byteAt, MAR_MAGIC])]
  simp only [byteAt, List.getD, List.get?_cons_succ, List.get?_cons_zero]
  rw [if_neg (by simp)]
  simp only [List.drop_succ_cons, List.drop_zero]

theorem spairs_pure {ps : List (LuaValue × LuaValue)} (hp : spairsWF ps) :
    pairsPure ps := @pairsWF_pure [] ps (@spairsWF_WF [] ps hp)

/-- Decoding the shared-table stream: the MAR_TVAL record creates and
fills the fresh table at address 1 (registered at id 1), and the MAR_TREF
back-reference resolves to the same address 1, so both root fields come
back as one shared instance. -/
theorem unp_two_shared (c : CallOracle) (m3 : Nat)
    (kp kq : LuaValue) (ips : List (LuaValue × LuaValue))
    (hkp : scalarWF kp) (hkq : scalarWF kq) (hne : kp ≠ kq)
    (hips : pairsPure ips)
    (hL : (pairsBytes ips).length < 2 ^ 32)
    (hfi : ips.length + 1 ≤ m3 + 1) :
    tbl_unmarshal c (m3 + 3)
      (MAR_MAGIC :: 1 :: (sbytes kp ++
        ((5 :: 2 :: (toLE 4 (pairsBytes ips).length ++ pairsBytes ips)) ++
         (sbytes kq ++ (5 :: 1 :: toLE 4 1)))))
      = (⟨[.otbl ⟨[(kp, .tbl 1), (kq, .tbl 1)], none⟩,
           .otbl ⟨tsetFold ips [], none⟩],
          [(1, .tbl 1)], [(1, .tbl 1)], false⟩, .ok (.tbl 0)) := by
  have hkpp : vPure kp := by
    cases kp <;> simp [scalarWF] at hkp <;> simp [vPure] <;> tauto
  have hkqp : vPure kq := by
    cases kq <;> simp [scalarWF] at hkq <;> simp [vPure] <;> tauto
  have hlkp : (sbytes kp).length = slen kp := slen_eq_length hkpp
  have hlkq : (sbytes kq).length = slen kq := slen_eq_length hkqp
  have hp1 := slen_pos hkpp
  have hq1 := slen_pos hkqp
  rw [tbl_unmarshal_le]
  have hblen : (sbytes kp ++
      ((5 :: 2 :: (toLE 4 (pairsBytes ips).length ++ pairsBytes ips)) ++
       (sbytes kq ++ (5 :: 1 :: toLE 4 1)))).length
      = slen kp + 6 + (pairsBytes ips).length + slen kq + 6 := by
    simp [hlkp, hlkq, toLE_length]
    omega
  have hkey1 : (unpGo c (sbytes kp ++
      ((5 :: 2 :: (toLE 4 (pairsBytes ips).length ++ pairsBytes ips)) ++
       (sbytes kq ++ (5 :: 1 :: toLE 4 1)))) (m3 + 2)).1
      0 (slen kp + 6 + (pairsBytes ips).length + slen kq + 6)
      (⟨[.otbl ⟨[], none⟩], [], [], false⟩ : UnpSt) 0 1
      = (⟨[.otbl ⟨[], none⟩], [], [], false⟩,
         .ok (kp, slen kp, 1)) := by
    have h := unpGo_kval c _ (m3 + 1) 0
      (slen kp + 6 + (pairsBytes ips).length + slen kq + 6) 0 1
      (⟨[.otbl ⟨[], none⟩], [], [], false⟩ : UnpSt) kp
      [] ((5 :: 2 :: (toLE 4 (pairsBytes ips).length ++ pairsBytes ips)) ++
          (sbytes kq ++ (5 :: 1 :: toLE 4 1)))
      hkp rfl rfl (by omega)
      (by simp only [List.nil_append, hblen]; omega)
    simpa using h
  have hval1 : (unpGo c (sbytes kp ++
      ((5 :: 2 :: (toLE 4 (pairsBytes ips).length ++ pairsBytes ips)) ++
       (sbytes kq ++ (5 :: 1 :: toLE 4 1)))) (m3 + 2)).1
      0 (slen kp + 6 + (pairsBytes ips).length + slen kq + 6)
      (⟨[.otbl ⟨[], none⟩], [], [], false⟩ : UnpSt) (slen kp) 1
      = (⟨[.otbl ⟨[], none⟩, .otbl ⟨tsetFold ips [], none⟩],
          [(1, .tbl 1)], [(1, .tbl 1)], false⟩,
         .ok (.tbl 1, slen kp + 6 + (pairsBytes ips).length, 2)) := by
    have h := unpGo_tval c _ (m3 + 1) 0
      (slen kp + 6 + (pairsBytes ips).length + slen kq + 6)
      (slen kp) 1 (⟨[.otbl ⟨[], none⟩], [], [], false⟩ : UnpSt) ips
      (sbytes kp) (sbytes kq ++ (5 :: 1 :: toLE 4 1))
      hips hL rfl (by simp [hlkp]) (by omega)
      (by simp only [List.nil_append, hblen]; omega) hfi
    rw [h]
    have hsp1 : storePairs 1
        (⟨[.otbl ⟨[], none⟩, .otbl ⟨[], none⟩],
          [(1, .tbl 1)], [(1, .tbl 1)], false⟩ : UnpSt) ips
        = ⟨[.otbl ⟨[], none⟩, .otbl ⟨tsetFold ips [], none⟩],
           [(1, .tbl 1)], [(1, .tbl 1)], false⟩ := by
      rw [storePairs_eq ips 1
        (⟨[.otbl ⟨[], none⟩, .otbl ⟨[], none⟩],
          [(1, .tbl 1)], [(1, .tbl 1)], false⟩ : UnpSt) [] none rfl]
      simp [hset]
    simp [regPut, refUPut, hsp1]
  have hset1 : settableOp
      (⟨[.otbl ⟨[], none⟩, .otbl ⟨tsetFold ips [], none⟩],
        [(1, .tbl 1)], [(1, .tbl 1)], false⟩ : UnpSt) 0 kp (.tbl 1)
      = (⟨[.otbl ⟨[(kp, .tbl 1)], none⟩, .otbl ⟨tsetFold ips [], none⟩],
          [(1, .tbl 1)], [(1, .tbl 1)], false⟩, .ok ()) := by
    rw [settableOp_scalar
      (⟨[.otbl ⟨[], none⟩, .otbl ⟨tsetFold ips [], none⟩],
        [(1, .tbl 1)], [(1, .tbl 1)], false⟩ : UnpSt)
      0 kp (.tbl 1) ⟨[], none⟩ hkp rfl]
    simp [hset, tset]
  have hkey2 : (unpGo c (sbytes kp ++
      ((5 :: 2 :: (toLE 4 (pairsBytes ips).length ++ pairsBytes ips)) ++
       (sbytes kq ++ (5 :: 1 :: toLE 4 1)))) (m3 + 1)).1
      0 (slen kp + 6 + (pairsBytes ips).length + slen kq + 6)
      (⟨[.otbl ⟨[(kp, .tbl 1)], none⟩, .otbl ⟨tsetFold ips [], none⟩],
        [(1, .tbl 1)], [(1, .tbl 1)], false⟩ : UnpSt)
      (slen kp + 6 + (pairsBytes ips).length) 2
      = (⟨[.otbl ⟨[(kp, .tbl 1)], none⟩, .otbl ⟨tsetFold ips [], none⟩],
          [(1, .tbl 1)], [(1, .tbl 1)], false⟩,
         .ok (kq, slen kp + 6 + (pairsBytes ips).length + slen kq, 2)) := by
    have h := unpGo_kval c (sbytes kp ++
      ((5 :: 2 :: (toLE 4 (pairsBytes ips).length ++ pairsBytes ips)) ++
       (sbytes kq ++ (5 :: 1 :: toLE 4 1)))) m3 0
      (slen kp + 6 + (pairsBytes ips).length + slen kq + 6)
      (slen kp + 6 + (pairsBytes ips).length) 2
      (⟨[.otbl ⟨[(kp, .tbl 1)], none⟩, .otbl ⟨tsetFold ips [], none⟩],
        [(1, .tbl 1)], [(1, .tbl 1)], false⟩ : UnpSt) kq
      (sbytes kp ++ (5 :: 2 :: (toLE 4 (pairsBytes ips).length ++ pairsBytes ips)))
      (5 :: 1 :: toLE 4 1) hkq
      (by simp) (by simp [hlkp, toLE_length]; omega) (by omega)
      (by rw [hblen]; omega)
    simpa using h
  have hval2 : (unpGo c (sbytes kp ++
      ((5 :: 2 :: (toLE 4 (pairsBytes ips).length ++ pairsBytes ips)) ++
       (sbytes kq ++ (5 :: 1 :: toLE 4 1)))) (m3 + 1)).1
      0 (slen kp + 6 + (pairsBytes ips).length + slen kq + 6)
      (⟨[.otbl ⟨[(kp, .tbl 1)], none⟩, .otbl ⟨tsetFold ips [], none⟩],
        [(1, .tbl 1)], [(1, .tbl 1)], false⟩ : UnpSt)
      (slen kp + 6 + (pairsBytes ips).length + slen kq) 2
      = (⟨[.otbl ⟨[(kp, .tbl 1)], none⟩, .otbl ⟨tsetFold ips [], none⟩],
          [(1, .tbl 1)], [(1, .tbl 1)], false⟩,
         .ok (.tbl 1, slen kp + 6 + (pairsBytes ips).length + slen kq + 6, 2)) := by
    have h := unpGo_tref c (sbytes kp ++
      ((5 :: 2 :: (toLE 4 (pairsBytes ips).length ++ pairsBytes ips)) ++
       (sbytes kq ++ (5 :: 1 :: toLE 4 1)))) m3 0
      (slen kp + 6 + (pairsBytes ips).length + slen kq + 6)
      (slen kp + 6 + (pairsBytes ips).length + slen kq) 2
      (⟨[.otbl ⟨[(kp, .tbl 1)], none⟩, .otbl ⟨tsetFold ips [], none⟩],
        [(1, .tbl 1)], [(1, .tbl 1)], false⟩ : UnpSt) 1
      (sbytes kp ++
        ((5 :: 2 :: (toLE 4 (pairsBytes ips).length ++ pairsBytes ips)) ++
         sbytes kq)) [] (by norm_num)
      (by simp) (by simp [hlkp, hlkq, toLE_length]; omega) (by omega)
      (by rw [hblen]; omega)
    rw [h]
    simp [refUGet]
  have hset2 : settableOp
      (⟨[.otbl ⟨[(kp, .tbl 1)], none⟩, .otbl ⟨tsetFold ips [], none⟩],
        [(1, .tbl 1)], [(1, .tbl 1)], false⟩ : UnpSt) 0 kq (.tbl 1)
      = (⟨[.otbl ⟨[(kp, .tbl 1), (kq, .tbl 1)], none⟩,
           .otbl ⟨tsetFold ips [], none⟩],
          [(1, .tbl 1)], [(1, .tbl 1)], false⟩, .ok ()) := by
    rw [settableOp_scalar
      (⟨[.otbl ⟨[(kp, .tbl 1)], none⟩, .otbl ⟨tsetFold ips [], none⟩],
        [(1, .tbl 1)], [(1, .tbl 1)], false⟩ : UnpSt)
      0 kq (.tbl 1) ⟨[(kp, .tbl 1)], none⟩ hkq rfl]
    simp [hset, tset, hne]
  have hrest : (unpGo c (sbytes kp ++
      ((5 :: 2 :: (toLE 4 (pairsBytes ips).length ++ pairsBytes ips)) ++
       (sbytes kq ++ (5 :: 1 :: toLE 4 1)))) (m3 + 2)).2
      0 (slen kp + 6 + (pairsBytes ips).length + slen kq + 6)
      (⟨[.otbl ⟨[(kp, .tbl 1)], none⟩, .otbl ⟨tsetFold ips [], none⟩],
        [(1, .tbl 1)], [(1, .tbl 1)], false⟩ : UnpSt)
      (slen kp + 6 + (pairsBytes ips).length) 2 0
      = (⟨[.otbl ⟨[(kp, .tbl 1), (kq, .tbl 1)], none⟩,
           .otbl ⟨tsetFold ips [], none⟩],
          [(1, .tbl 1)], [(1, .tbl 1)], false⟩, .ok ()) := by
    show unpStepRec c (sbytes kp ++
      ((5 :: 2 :: (toLE 4 (pairsBytes ips).length ++ pairsBytes ips)) ++
       (sbytes kq ++ (5 :: 1 :: toLE 4 1)))) (unpGo c (sbytes kp ++
      ((5 :: 2 :: (toLE 4 (pairsBytes ips).length ++ pairsBytes ips)) ++
       (sbytes kq ++ (5 :: 1 :: toLE 4 1)))) (m3 + 1)) 0
      (slen kp + 6 + (pairsBytes ips).length + slen kq + 6)
      (⟨[.otbl ⟨[(kp, .tbl 1)], none⟩, .otbl ⟨tsetFold ips [], none⟩],
        [(1, .tbl 1)], [(1, .tbl 1)], false⟩ : UnpSt)
      (slen kp + 6 + (pairsBytes ips).length) 2 0 = _
    unfold unpStepRec
    rw [if_pos (by omega)]
    rw [hkey2]
    simp only []
    rw [hval2]
    simp only []
    rw [hset2]
    simp only []
    show unpStepRec c (sbytes kp ++
      ((5 :: 2 :: (toLE 4 (pairsBytes ips).length ++ pairsBytes ips)) ++
       (sbytes kq ++ (5 :: 1 :: toLE 4 1)))) (unpGo c (sbytes kp ++
      ((5 :: 2 :: (toLE 4 (pairsBytes ips).length ++ pairsBytes ips)) ++
       (sbytes kq ++ (5 :: 1 :: toLE 4 1)))) m3) 0
      (slen kp + 6 + (pairsBytes ips).length + slen kq + 6)
      (⟨[.otbl ⟨[(kp, .tbl 1), (kq, .tbl 1)], none⟩,
         .otbl ⟨tsetFold ips [], none⟩],
        [(1, .tbl 1)], [(1, .tbl 1)], false⟩ : UnpSt)
      (slen kp + 6 + (pairsBytes ips).length + slen kq + 6) 2 0 = _
    unfold unpStepRec
    rw [if_neg (by omega)]
  have hdec : mar_unpack c (sbytes kp ++
      ((5 :: 2 :: (toLE 4 (pairsBytes ips).length ++ pairsBytes ips)) ++
       (sbytes kq ++ (5 :: 1 :: toLE 4 1)))) 0
      (slen kp + 6 + (pairsBytes ips).length + slen kq + 6) (m3 + 3)
      (⟨[.otbl ⟨[], none⟩], [], [], false⟩ : UnpSt) 0 1 0
      = (⟨[.otbl ⟨[(kp, .tbl 1), (kq, .tbl 1)], none⟩,
           .otbl ⟨tsetFold ips [], none⟩],
          [(1, .tbl 1)], [(1, .tbl 1)], false⟩, .ok ()) := by
    show unpStepRec c (sbytes kp ++
      ((5 :: 2 :: (toLE 4 (pairsBytes ips).length ++ pairsBytes ips)) ++
       (sbytes kq ++ (5 :: 1 :: toLE 4 1)))) (unpGo c (sbytes kp ++
      ((5 :: 2 :: (toLE 4 (pairsBytes ips).length ++ pairsBytes ips)) ++
       (sbytes kq ++ (5 :: 1 :: toLE 4 1)))) (m3 + 2)) 0
      (slen kp + 6 + (pairsBytes ips).length + slen kq + 6)
      (⟨[.otbl ⟨[], none⟩], [], [], false⟩ : UnpSt) 0 1 0 = _
    unfold unpStepRec
    rw [if_pos (by omega)]
    rw [hkey1]
    simp only []
    rw [hval1]
    simp only []
    rw [hset1]
    simp only []
    exact hrest
  rw [hblen, hdec]

/-- Amended C2, universal form for benign sharing: for any root with two
fields (distinct scalar keys) pointing at the same inner table of
all-scalar pairs, the clone's two fields are one shared fresh instance
(address 1), distinct from the clone's root (address 0), and the shared
instance holds the decoded inner pairs. -/
theorem c2_family (c : CallOracle) (fuel : Nat) (h : Heap) (r ia : Nat)
    (t : LuaTable) (kp kq : LuaValue) (ips : List (LuaValue × LuaValue))
    (hr : hget h r = some (.otbl t))
    (htp : t.pairs = [(kp, .tbl ia), (kq, .tbl ia)])
    (hi : hget h ia = some (.otbl ⟨ips, none⟩))
    (hkp : scalarWF kp) (hkq : scalarWF kq) (hne : kp ≠ kq)
    (hips : spairsWF ips)
    (hL : (pairsBytes ips).length < 2 ^ 32)
    (hf : ips.length + 4 ≤ fuel) :
    tbl_clone c fuel h (.tbl r)
      = (⟨[.otbl ⟨[(kp, .tbl 1), (kq, .tbl 1)], none⟩,
           .otbl ⟨tsetFold ips [], none⟩],
          [(1, .tbl 1)], [(1, .tbl 1)], false⟩, .ok (.tbl 0)) := by
  obtain ⟨m3, rfl⟩ : ∃ m3, fuel = m3 + 3 := ⟨fuel - 3, by omega⟩
  simp only [tbl_clone,
    pack_two_shared c (m3 + 3) h r ia t kp kq ips hr htp hi hkp hkq hips hL hf]
  exact unp_two_shared c m3 kp kq ips hkp hkq hne (spairs_pure hips) hL
    (by omega)

/-- Decoding a one-pair stream whose value is a back-reference to an id
that was never registered: `lua_rawgeti` yields nil (no check), the nil
store is a no-op, and unmarshal returns the empty Record with an empty
reference table — no error of any kind. -/
theorem unp_unknown_ref (c : CallOracle) (fuel : Nat) (k : LuaValue)
    (rid : Nat) (hk : scalarWF k) (hrid : rid < 2 ^ 31)
    (hf : 2 ≤ fuel) :
    tbl_unmarshal c fuel
      (MAR_MAGIC :: 1 :: (sbytes k ++ (5 :: 1 :: toLE 4 rid)))
      = (⟨[.otbl ⟨[], none⟩], [], [], false⟩, .ok (.tbl 0)) := by
  obtain ⟨m, rfl⟩ : ∃ m, fuel = m + 2 := ⟨fuel - 2, by omega⟩
  have hkp : vPure k := by
    cases k <;> simp [scalarWF] at hk <;> simp [vPure] <;> tauto
  have hlk : (sbytes k).length = slen k := slen_eq_length hkp
  have hblen : (sbytes k ++ (5 :: 1 :: toLE 4 rid)).length = slen k + 6 := by
    simp [hlk, toLE_length]
  rw [tbl_unmarshal_le]
  have hkey : (unpGo c (sbytes k ++ (5 :: 1 :: toLE 4 rid)) (m + 1)).1
      0 (slen k + 6) (⟨[.otbl ⟨[], none⟩], [], [], false⟩ : UnpSt) 0 1
      = (⟨[.otbl ⟨[], none⟩], [], [], false⟩, .ok (k, slen k, 1)) := by
    have h := unpGo_kval c (sbytes k ++ (5 :: 1 :: toLE 4 rid)) m 0
      (slen k + 6) 0 1 (⟨[.otbl ⟨[], none⟩], [], [], false⟩ : UnpSt) k
      [] (5 :: 1 :: toLE 4 rid) hk rfl rfl (by omega)
      (by simp only [List.nil_append, hblen]; omega)
    simpa using h
  have hval : (unpGo c (sbytes k ++ (5 :: 1 :: toLE 4 rid)) (m + 1)).1
      0 (slen k + 6) (⟨[.otbl ⟨[], none⟩], [], [], false⟩ : UnpSt)
      (slen k) 1
      = (⟨[.otbl ⟨[], none⟩], [], [], false⟩,
         .ok (.nil, slen k + 6, 1)) := by
    have h := unpGo_tref c (sbytes k ++ (5 :: 1 :: toLE 4 rid)) m 0
      (slen k + 6) (slen k) 1
      (⟨[.otbl ⟨[], none⟩], [], [], false⟩ : UnpSt) rid
      (sbytes k) [] hrid (by simp) (by simp [hlk]) (by omega)
      (by rw [hblen]; omega)
    rw [h]
    simp [refUGet]
  have hset1 : settableOp
      (⟨[.otbl ⟨[], none⟩], [], [], false⟩ : UnpSt) 0 k .nil
      = (⟨[.otbl ⟨[], none⟩], [], [], false⟩, .ok ()) := by
    rw [settableOp_scalar
      (⟨[.otbl ⟨[], none⟩], [], [], false⟩ : UnpSt) 0 k .nil
      ⟨[], none⟩ hk rfl]
    simp [hset, tset]
  have hdec : mar_unpack c (sbytes k ++ (5 :: 1 :: toLE 4 rid)) 0
      (slen k + 6) (m + 2)
      (⟨[.otbl ⟨[], none⟩], [], [], false⟩ : UnpSt) 0 1 0
      = (⟨[.otbl ⟨[], none⟩], [], [], false⟩, .ok ()) := by
    show unpStepRec c (sbytes k ++ (5 :: 1 :: toLE 4 rid))
      (unpGo c (sbytes k ++ (5 :: 1 :: toLE 4 rid)) (m + 1)) 0
      (slen k + 6) (⟨[.otbl ⟨[], none⟩], [], [], false⟩ : UnpSt) 0 1 0 = _
    unfold unpStepRec
    rw [if_pos (by have := slen_pos hkp; omega)]
    rw [hkey]
    simp only []
    rw [hval]
    simp only []
    rw [hset1]
    simp only []
    show unpStepRec c (sbytes k ++ (5 :: 1 :: toLE 4 rid))
      (unpGo c (sbytes k ++ (5 :: 1 :: toLE 4 rid)) m) 0
      (slen k + 6) (⟨[.otbl ⟨[], none⟩], [], [], false⟩ : UnpSt)
      (slen k + 6) 1 0 = _
    unfold unpStepRec
    rw [if_neg (by omega)]
  rw [hblen, hdec]

/-! ## Claim theorems -/

/-- C1 (code-bug evaluation): the claim states that for every root Record
built from Nil/Boolean/Number/String/Composite values,
unmarshal(marshal(V)) is deep-equal to V.  The code violates it: `mar_pack`
receives the id counter BY VALUE (`int idx`), so ids assigned inside a
nested record are reused afterwards.  For `c1Heap` (root = {1 = A, 2 = B,
3 = I} with A = {1 = I}, I = {1 = 5}, B = {1 = 7}): I is registered as id 2
inside A's nested record, B is then also registered as id 2; the decoder
mirrors this, its id-2 slot is overwritten by the clone of B, and the
back-reference packed for root[3] (which denoted I) resolves to the clone
of B.  The round trip returns successfully, and root'[3][1] is 7 where
V[3][1] is 5 — not deep-equal. -/
theorem c1_roundtrip_fails_on_shared_nested_reference :
    (tbl_clone noHooks 32 c1Heap (.tbl 3)).2 = .ok (.tbl 0) ∧
    pathLookup c1Heap (.tbl 3) [numV 3, numV 1] = some (numV 5) ∧
    pathLookup (tbl_clone noHooks 32 c1Heap (.tbl 3)).1.heap (.tbl 0)
      [numV 3, numV 1] = some (numV 7) ∧
    deepEqN 3 c1Heap (.tbl 3)
      (tbl_clone noHooks 32 c1Heap (.tbl 3)).1.heap (.tbl 0) = false ∧
    ¬ deepEq c1Heap (.tbl 3)
      (tbl_clone noHooks 32 c1Heap (.tbl 3)).1.heap (.tbl 0) := by
  refine ⟨by decide, by decide, by decide, by decide, fun hall => ?_⟩
  exact absurd (hall 3) (by decide)

/-- C2 (counterexample): the claim as stated is false.  (a) For the
self-cycle C with C.x = C (`selfHeap`), clone(C) is the freshly rebuilt
root (decode address 0) whose field x is the DIFFERENT instance at decode
address 1 — the root's pairs are packed without a wrapper and the root is
never reference-tracked, so `clone(C).x == clone(C)` fails.  (b) For
`shrHeap`, whose root fields 2 and 4 point at the same instance I, the
clone's fields 2 and 4 point at two different instances (decode addresses
2 and 3): the id-2 slot was overwritten between resolving the two
back-references (non-propagating counter). -/
theorem c2_clone_identity_counterexample :
    ((tbl_clone noHooks 32 selfHeap (.tbl 0)).2 = .ok (.tbl 0) ∧
     pathLookup (tbl_clone noHooks 32 selfHeap (.tbl 0)).1.heap (.tbl 0)
       [.str [120]] = some (.tbl 1) ∧
     LuaValue.tbl 1 ≠ LuaValue.tbl 0) ∧
    ((tbl_clone noHooks 32 shrHeap (.tbl 3)).2 = .ok (.tbl 0) ∧
     pathLookup shrHeap (.tbl 3) [numV 2] = some (.tbl 1) ∧
     pathLookup shrHeap (.tbl 3) [numV 4] = some (.tbl 1) ∧
     pathLookup (tbl_clone noHooks 32 shrHeap (.tbl 3)).1.heap (.tbl 0)
       [numV 2] = some (.tbl 2) ∧
     pathLookup (tbl_clone noHooks 32 shrHeap (.tbl 3)).1.heap (.tbl 0)
       [numV 4] = some (.tbl 3) ∧
     LuaValue.tbl 2 ≠ LuaValue.tbl 3) := by
  exact ⟨⟨by decide, by decide, by decide⟩,
         ⟨by decide, by decide, by decide, by decide, by decide, by decide⟩⟩

/-- C2 (amended): what does hold.  (a) For the self-cycle, the nested
instance is itself a faithful self-cycle — clone(C).x.x is the same
instance as clone(C).x — but clone(C) itself is a fresh, untracked root.
(b) Universally: for ANY root whose two fields (distinct scalar keys)
point at the same inner table of scalar pairs, both clone fields are ONE
shared fresh instance (decode address 1, distinct from the clone's root
at address 0) holding the decoded inner pairs: no id collision from a
nested first-sighting intervenes in this shape, so the sharing survives
the round trip. -/
theorem c2_amended_inner_cycle_and_benign_sharing :
    (pathLookup (tbl_clone noHooks 32 selfHeap (.tbl 0)).1.heap (.tbl 0)
       [.str [120]] = some (.tbl 1) ∧
     pathLookup (tbl_clone noHooks 32 selfHeap (.tbl 0)).1.heap (.tbl 0)
       [.str [120], .str [120]] = some (.tbl 1)) ∧
    (∀ (c : CallOracle) (fuel : Nat) (h : Heap) (r ia : Nat)
       (t : LuaTable) (kp kq : LuaValue) (ips : List (LuaValue × LuaValue)),
      hget h r = some (.otbl t) →
      t.pairs = [(kp, .tbl ia), (kq, .tbl ia)] →
      hget h ia = some (.otbl ⟨ips, none⟩) →
      scalarWF kp → scalarWF kq → kp ≠ kq → spairsWF ips →
      (pairsBytes ips).length < 2 ^ 32 → ips.length + 4 ≤ fuel →
      tbl_clone c fuel h (.tbl r)
        = (⟨[.otbl ⟨[(kp, .tbl 1), (kq, .tbl 1)], none⟩,
             .otbl ⟨tsetFold ips [], none⟩],
            [(1, .tbl 1)], [(1, .tbl 1)], false⟩, .ok (.tbl 0)) ∧
      (∃ tr, hget (tbl_clone c fuel h (.tbl r)).1.heap 0
          = some (.otbl tr) ∧
        tget tr.pairs kp = some (.tbl 1) ∧
        tget tr.pairs kq = some (.tbl 1))) := by
  constructor
  · exact ⟨by decide, by decide⟩
  · intro c fuel h r ia t kp kq ips hr htp hi hkp hkq hne hips hL hf
    have he := c2_family c fuel h r ia t kp kq ips hr htp hi hkp hkq hne
      hips hL hf
    refine ⟨he, ⟨[(kp, .tbl 1), (kq, .tbl 1)], none⟩,
      by rw [he]; rfl, by simp [tget], by simp [tget, hne]⟩

/-- C3 (counterexample): the decoder does read bytes outside the supplied
range.  For the 3-byte stream `s3` (header plus a bare LUA_TNUMBER tag),
`lua_pushnumber(L, *(lua_Number*)*p)` reads 8 bytes that lie entirely
outside the buffer BEFORE `mar_incr_ptr(MAR_I64)` rejects the record: the
out-of-range instrumentation flag is set (and the decode then fails).
The claim asserts the decoder never reads any byte outside
[buf, buf+len). -/
theorem c3_reads_outside_supplied_range :
    (tbl_unmarshal noHooks 32 s3).1.oob = true ∧
    (tbl_unmarshal noHooks 32 s3).2 = .error .badCode := by
  exact ⟨by decide, by decide⟩

/-- C3 (amended): every cursor advance is still guarded by a bound check,
and although the reads themselves happen before those checks (so bytes
outside the supplied range can be touched), any overrun aborts the decode:
whenever `tbl_unmarshal` returns a value, no byte outside the supplied
[buf, buf+len) range was ever read. -/
theorem c3_amended_no_value_after_oob_read (c : CallOracle) (fuel : Nat)
    (s : List Nat) (st : UnpSt) (v : LuaValue)
    (h : tbl_unmarshal c fuel s = (st, Except.ok v)) : st.oob = false :=
  tbl_unmarshal_ok_no_oob c fuel s st v h

/-- Witness for the amended C3 theorem: the bare-header stream decodes
successfully and its final state has the flag clear. -/
theorem c3_amended_no_value_after_oob_read_witness :
    (UnpSt.mk [.otbl ⟨[], none⟩] [] [] false).oob = false :=
  c3_amended_no_value_after_oob_read noHooks 2 [142, 1]
    (UnpSt.mk [.otbl ⟨[], none⟩] [] [] false) (.tbl 0) (by decide)

/-- C4 (counterexample): a stream whose only value is a back-reference to
the never-registered id 99 does NOT fail: `lua_rawgeti` yields nil, the
store of a nil value is a no-op, and unmarshal returns an (empty) Record.
The claim says it fails with CorruptStream rather than returning a
value. -/
theorem c4_unknown_id_returns_value :
    (tbl_unmarshal noHooks 32 s4val).2 = .ok (.tbl 0) ∧
    (tbl_unmarshal noHooks 32 s4val).1.heap = [.otbl ⟨[], none⟩] := by
  exact ⟨by decide, by decide⟩

/-- C4 (amended): an unregistered back-reference resolves to Nil and
decoding continues — no CorruptStream.  In value position the pair is
silently absent and unmarshal returns normally: proved universally for
every one-pair stream with a scalar key and a back-reference to ANY
31-bit id, none of which was ever registered (the final reference table
is empty); in key position the subsequent `lua_settable` raises "table
index is nil". -/
theorem c4_amended_unknown_id_is_nil :
    (∀ (c : CallOracle) (fuel : Nat) (k : LuaValue) (rid : Nat),
      scalarWF k → rid < 2 ^ 31 → 2 ≤ fuel →
      tbl_unmarshal c fuel
        (MAR_MAGIC :: 1 :: (sbytes k ++ (5 :: 1 :: toLE 4 rid)))
        = (⟨[.otbl ⟨[], none⟩], [], [], false⟩, .ok (.tbl 0))) ∧
    ((tbl_unmarshal noHooks 32 s4val).2 = .ok (.tbl 0) ∧
     (tbl_unmarshal noHooks 32 s4val).1.refs = [] ∧
     (tbl_unmarshal noHooks 32 s4val).1.heap = [.otbl ⟨[], none⟩]) ∧
    (tbl_unmarshal noHooks 32 s4key).2 = .error .nilIndex := by
  refine ⟨fun c fuel k rid hk hrid hf =>
      unp_unknown_ref c fuel k rid hk hrid hf,
    ⟨by decide, by decide, by decide⟩, by decide⟩

/-- C5 (counterexample): decoding the marshalled `c1Heap` stream registers
three containers, in order, at ids 1, 2 and 2 — the third distinct
reference-tracked value does NOT get id 3, because the counter does not
propagate out of nested records. -/
theorem c5_ids_not_sequential :
    (tbl_clone noHooks 32 c1Heap (.tbl 3)).1.log.map Prod.fst = [1, 2, 2] ∧
    ¬ ((tbl_clone noHooks 32 c1Heap (.tbl 3)).1.log.map Prod.fst
        = [(1 : Int), 2, 3]) := by
  exact ⟨by decide, by decide⟩

/-- C5 (amended): tag=Value does register its empty container at the next
id BEFORE decoding its contents — a self-reference inside the nested
record resolves to the container itself (the decoded instance at address 1
has itself as its x field).  tag=Opaque does NOT: decoding `s7`, the
wrapper contents register the loaded closure at id 1 first, and the
reviver's RESULT is registered afterwards, reusing id 1 (the counter was
not incremented before the nested decode). -/
theorem c5_amended_value_registers_before_contents :
    pathLookup (tbl_clone noHooks 32 selfHeap (.tbl 0)).1.heap (.tbl 1)
      [.str [120]] = some (.tbl 1) ∧
    (tbl_unmarshal c7c 32 s7).1.log = [(1, .func 2), (1, .boolean true)] := by
  exact ⟨by decide, by decide⟩

/-- C6 (counterexample): truncating a marshalled stream does NOT always
fail.  `s6` = marshal {1 = 5, 2 = 6} has 38 bytes; removing the last 18
bytes cuts exactly at the root-level pair boundary, and unmarshal returns
the Record {1 = 5} — a silently wrong value, not CorruptStream. -/
theorem c6_truncation_can_return_wrong_value :
    tbl_marshal noHooks true 32 c6Heap (.tbl 0) = .ok s6 ∧
    s6.length = 38 ∧
    (tbl_unmarshal noHooks 32 (s6.take 20)).2 = .ok (.tbl 0) ∧
    (tbl_unmarshal noHooks 32 (s6.take 20)).1.heap
      = [.otbl ⟨[(numV 1, numV 5)], none⟩] := by
  exact ⟨by decide, by decide, by decide, by decide⟩

/-- C6 (amended): for the 38-byte stream `s6` and every truncation by k
trailing bytes (0 < k < 38), unmarshal fails — EXCEPT when the cut falls
on a root-level pair boundary: k = 18 leaves {1 = 5} (the trailing pair is
silently dropped) and k = 36 leaves the bare header, which decodes to the
empty Record. -/
theorem c6_amended_truncation_profile (k : Nat) (hk : k < 38) (h0 : 0 < k) :
    (exOk (tbl_unmarshal noHooks 32 (s6.take (38 - k))).2 = true
      ↔ (k = 18 ∨ k = 36)) ∧
    (k = 18 → (tbl_unmarshal noHooks 32 (s6.take 20)).1.heap
      = [.otbl ⟨[(numV 1, numV 5)], none⟩]) ∧
    (k = 36 → (tbl_unmarshal noHooks 32 (s6.take 2)).1.heap
      = [.otbl ⟨[], none⟩]) := by
  revert h0
  revert hk
  revert k
  decide

/-- Witness for the C6 amended theorem at the concrete truncation k = 18. -/
theorem c6_amended_truncation_profile_witness :
    (exOk (tbl_unmarshal noHooks 32 (s6.take (38 - 18))).2 = true
      ↔ (18 = 18 ∨ 18 = 36)) ∧
    (18 = 18 → (tbl_unmarshal noHooks 32 (s6.take 20)).1.heap
      = [.otbl ⟨[(numV 1, numV 5)], none⟩]) ∧
    (18 = 36 → (tbl_unmarshal noHooks 32 (s6.take 2)).1.heap
      = [.otbl ⟨[], none⟩]) :=
  c6_amended_truncation_profile 18 (by decide) (by decide)

/-- C7 (counterexample): the persist hook returns ONE value (the reviver
closure, `lua_call(L, 1, 1)`), the stream carries tag=Opaque followed only
by the length-prefixed one-element wrapper record — `s7` ends right after
the wrapper, no separately packed captured-state record follows — and at
decode the reviver is invoked with ZERO arguments (`lua_call(L, 0, 1)`).
The oracle `c7c` returns boolean true exactly on zero-argument calls and
boolean false on any one-argument call; the decoded field is true, whereas
under the claimed calling convention (captured-state Record as sole
argument) it would have been false. -/
theorem c7_reviver_invoked_with_zero_args :
    tbl_marshal c7c true 32 c7Heap (.tbl 3) = .ok s7 ∧
    (tbl_unmarshal c7c 32 s7).2 = .ok (.tbl 0) ∧
    pathLookup (tbl_unmarshal c7c 32 s7).1.heap (.tbl 0) [numV 1]
      = some (.boolean true) ∧
    (∀ stArg : LuaValue, c7c (.func 2) [stArg] = some (.boolean false)) ∧
    LuaValue.boolean true ≠ LuaValue.boolean false := by
  refine ⟨by decide, by decide, by decide, fun stArg => rfl, by decide⟩

/-- C7 (amended): the hook yields a single reviver Callable (packing fails
with "__persist must return a function" otherwise); the stream carries
tag=Opaque plus the length-prefixed packed one-element wrapper holding
the reviver, and nothing more; at decode the wrapper is unpacked, element
1 is extracted and invoked with zero arguments, and the call's RESULT is
the substituted value (and the value registered — after the contents —
at this id).  Established with two revivers returning distinguishable
results, and with a hook that returns a non-function. -/
theorem c7_amended_single_closure_protocol :
    (tbl_marshal c7c true 32 c7Heap (.tbl 3) = .ok s7 ∧
     tbl_marshal c7d true 32 c7Heap (.tbl 3) = .ok s7) ∧
    ((tbl_unmarshal c7c 32 s7).2 = .ok (.tbl 0) ∧
     pathLookup (tbl_unmarshal c7c 32 s7).1.heap (.tbl 0) [numV 1]
       = some (.boolean true) ∧
     (tbl_unmarshal c7c 32 s7).1.log = [(1, .func 2), (1, .boolean true)]) ∧
    ((tbl_unmarshal c7d 32 s7).2 = .ok (.tbl 0) ∧
     pathLookup (tbl_unmarshal c7d 32 s7).1.heap (.tbl 0) [numV 1]
       = some (.str [99]) ∧
     (tbl_unmarshal c7d 32 s7).1.log = [(1, .func 2), (1, .str [99])]) ∧
    tbl_marshal c7bad true 32 c7Heap (.tbl 3) = .error .persistNotFn := by
  exact ⟨⟨by decide, by decide⟩, ⟨by decide, by decide, by decide⟩,
         ⟨by decide, by decide, by decide⟩, by decide⟩

/-- C8 (counterexample): a Record CONTAINING a coroutine-like value in key
position marshals fine, but unmarshal raises "table index is nil" (the
thread decodes to nil, which is then used as a table key) instead of
yielding Nil at that position without error. -/
theorem c8_thread_key_raises :
    tbl_marshal noHooks true 32 thrKeyHeap (.tbl 0)
      = .ok [142, 1, 8, 3, 0, 0, 0, 0, 0, 0, 20, 64] ∧
    (tbl_clone noHooks 32 thrKeyHeap (.tbl 0)).2 = .error .nilIndex := by
  exact ⟨by decide, by decide⟩

/-- C8 (amended): in VALUE positions the claim holds, universally: in any
root Record of scalar keys and self-contained values, a coroutine-like
value or a hook-less userdata value at any position (whose key does not
recur elsewhere) marshals without error, the clone succeeds with a clean
out-of-range flag, and the pair at that key is absent from the decoded
root — in Lua, t[k] = nil and an absent key are the same observation.
The second conjunct corroborates on `c8Heap` (coroutine-like at key 1,
hook-less userdata at key 2): both positions come back Nil while the
scalar pair survives. -/
theorem c8_amended_nil_in_value_position :
    (∀ (c : CallOracle) (fuel : Nat) (h : Heap) (r : Nat) (t : LuaTable)
       (ps qs : List (LuaValue × LuaValue)) (k v : LuaValue),
      hget h r = some (.otbl t) →
      t.pairs = ps ++ (k, v) :: qs →
      pairsWF h t.pairs →
      ((∃ a, v = .thread a) ∨ (∃ a, v = .usr a)) →
      k ∉ (ps ++ qs).map Prod.fst →
      t.pairs.length + 1 ≤ fuel →
      exOk (tbl_marshal c true fuel h (.tbl r)) = true ∧
      ∃ st, tbl_clone c fuel h (.tbl r) = (st, .ok (.tbl 0)) ∧
        st.oob = false ∧
        ∃ tr, hget st.heap 0 = some (.otbl tr) ∧ tget tr.pairs k = none) ∧
    (exOk (tbl_marshal noHooks true 32 c8Heap (.tbl 1)) = true ∧
     (tbl_clone noHooks 32 c8Heap (.tbl 1)).2 = .ok (.tbl 0) ∧
     (tbl_clone noHooks 32 c8Heap (.tbl 1)).1.heap
       = [.otbl ⟨[(numV 3, numV 5)], none⟩] ∧
     pathLookup (tbl_clone noHooks 32 c8Heap (.tbl 1)).1.heap (.tbl 0)
       [numV 1] = none ∧
     pathLookup (tbl_clone noHooks 32 c8Heap (.tbl 1)).1.heap (.tbl 0)
       [numV 2] = none ∧
     pathLookup (tbl_clone noHooks 32 c8Heap (.tbl 1)).1.heap (.tbl 0)
       [numV 3] = some (numV 5)) := by
  constructor
  · intro c fuel h r t ps qs k v hr hsplit hwf hv hk hf
    exact c8_family c fuel h r t ps qs k v hr hsplit hwf hv hk hf
  · exact ⟨by decide, by decide, by decide, by decide, by decide,
      by decide⟩

/-- C9 (counterexample): the whole-payload byte reversal does NOT
reproduce correct values for a single scalar pair.  `s9` is the stream the
opposite-endianness (big-endian) marshaller produces for {5 = 7} — note
its tag bytes are 0, the first byte of the int `val_type` on a big-endian
host.  Decoding it on the little-endian host takes the
marker-mismatch/reversal path and fails with "bad code": after reversing
the whole payload the first byte consumed as a type tag is the low
mantissa byte of a double, not a tag. -/
theorem c9_reversal_does_not_reproduce_values :
    tbl_marshal noHooks false 32 c9Heap (.tbl 0) = .ok s9 ∧
    pathLookup c9Heap (.tbl 0) [numV 5] = some (numV 7) ∧
    byteAt s9 1 ≠ 1 ∧
    (tbl_unmarshal noHooks 32 s9).2 = .error .badCode := by
  exact ⟨by decide, by decide, by decide, by decide⟩

/-- C9 (amended): (i) inputs of length < 2 fail with "bad header" and a
wrong magic byte fails with "bad magic"; (ii) on an endianness-marker
mismatch the whole remaining payload is reversed byte-for-byte and
decoding proceeds on the reversed payload; but (iii) this blanket
reversal does not reproduce a tagged single-scalar-pair payload: the
stream the opposite-endianness marshaller produces for {5 = 7} fails to
decode (the reversal repositions the tag bytes), so only the raw bytes of
one scalar field in isolation would be restored, not a tagged record. -/
theorem c9_amended_header_and_reversal :
    (∀ (c : CallOracle) (fuel : Nat) (s : List Nat), s.length < 2 →
       (tbl_unmarshal c fuel s).2 = .error .badHeader) ∧
    (∀ (c : CallOracle) (fuel : Nat) (s : List Nat), 2 ≤ s.length →
       byteAt s 0 ≠ MAR_MAGIC →
       (tbl_unmarshal c fuel s).2 = .error .badMagic) ∧
    (∀ (c : CallOracle) (fuel : Nat) (s : List Nat), 2 ≤ s.length →
       byteAt s 0 = MAR_MAGIC → byteAt s 1 ≠ 1 →
       tbl_unmarshal c fuel s =
         (match mar_unpack c (s.drop 2).reverse 0 (s.drop 2).length fuel
             ⟨[.otbl ⟨[], none⟩], [], [], false⟩ 0 1 0 with
          | (st, .error e) => (st, .error e)
          | (st, .ok _) => (st, .ok (.tbl 0)))) ∧
    (tbl_marshal noHooks false 32 c9Heap (.tbl 0) = .ok s9 ∧
     byteAt s9 1 ≠ 1 ∧
     (tbl_unmarshal noHooks 32 s9).2 = .error .badCode) := by
  refine ⟨?_, ?_, ?_, by decide, by decide, by decide⟩
  · intro c fuel s h
    simp [tbl_unmarshal, h]
  · intro c fuel s h2 hm
    simp [tbl_unmarshal, Nat.not_lt.2 h2, hm]
  · intro c fuel s h2 hm0 hm1
    unfold tbl_unmarshal
    rw [if_neg (by omega), if_neg (not_not_intro hm0)]
    try simp only []
    rw [if_pos hm1]

/-- C10: marshal requires a Record root.  `tbl_marshal` pushes the
argument and calls `lua_next` on it, which is only defined on tables: for
every non-table root the call aborts with an error and never returns a
byte string.  (In the model this API violation is the error `apiMisuse`;
a release-mode C build would abort on undefined behaviour rather than
return.) -/
theorem c10_marshal_requires_record_root (c : CallOracle) (le : Bool)
    (fuel : Nat) (h : Heap) (v : LuaValue) (hv : lua_type v ≠ LUA_TTABLE) :
    tbl_marshal c le fuel h v = .error .apiMisuse := by
  cases v
  case tbl a => exact absurd rfl hv
  all_goals rfl

/-- Witness for C10 at the concrete non-Record roots nil, a number and a
boolean. -/
theorem c10_marshal_requires_record_root_witness :
    lua_type .nil ≠ LUA_TTABLE ∧
    tbl_marshal noHooks true 32 [] .nil = .error .apiMisuse ∧
    tbl_marshal noHooks true 32 [] (numV 1) = .error .apiMisuse ∧
    tbl_marshal noHooks true 32 [] (.boolean true) = .error .apiMisuse :=
  ⟨by decide,
   c10_marshal_requires_record_root noHooks true 32 [] .nil (by decide),
   c10_marshal_requires_record_root noHooks true 32 [] (numV 1) (by decide),
   c10_marshal_requires_record_root noHooks true 32 [] (.boolean true)
     (by decide)⟩

end LMarshal
